import Mathlib

/-!
Verification of the NextSkill resume parser core
(`backend/nlp parser/app.py`).

Shallow embedding conventions:
* Python strings are modeled as Lean `String` / `List Char`; the internal
  functions work on `List Char` for easy structural recursion, with
  `String` wrappers that keep the Python names.
* Python `str.lower` / `str.upper` / `str.isupper` / `str.strip` are modeled
  by ASCII case mapping and ASCII whitespace stripping, which agrees with
  Python on all ASCII input.
* The regular expressions of the source are compiled by hand into
  backtracking matchers in list-of-successes style: every alternative is
  produced in exactly Python's preference order (leftmost match position,
  earlier alternation branch first, greedy quantifiers longest-first), and
  the overall match is the first success.
* The spaCy recognition engine (`nlp(...)`, `doc.ents`, the `Matcher`) is an
  external collaborator (spec section 6); where a function consumes its
  output, the tagged entities are passed in explicitly as data.
-/

/-! ## Character helpers (ASCII model of Python's str case and whitespace) -/

/-- Whitespace characters recognised by the model (space, tab, LF, CR). -/
def isWs (c : Char) : Bool :=
  c.toNat = 32 || c.toNat = 9 || c.toNat = 10 || c.toNat = 13

/-- ASCII lower-casing of a single character, as Python's `str.lower` on ASCII. -/
def lowerC (c : Char) : Char :=
  if 65 ≤ c.toNat ∧ c.toNat ≤ 90 then Char.ofNat (c.toNat + 32) else c

/-- ASCII upper-casing of a single character, as Python's `str.upper` on ASCII. -/
def upperC (c : Char) : Char :=
  if 97 ≤ c.toNat ∧ c.toNat ≤ 122 then Char.ofNat (c.toNat - 32) else c

theorem toNat_ofNat_of_lt (n : Nat) (h : n < 55296) : (Char.ofNat n).toNat = n := by
  have hv : Nat.isValidChar n := Or.inl h
  simp [Char.ofNat, hv, Char.ofNatAux, Char.toNat, UInt32.toNat, BitVec.toNat_ofNatLt]

theorem lowerC_upperC (c : Char) : lowerC (upperC c) = lowerC c := by
  by_cases h : 97 ≤ c.toNat ∧ c.toNat ≤ 122
  · have ht : (Char.ofNat (c.toNat - 32)).toNat = c.toNat - 32 :=
      toNat_ofNat_of_lt _ (by omega)
    have h2 : ¬ (65 ≤ c.toNat ∧ c.toNat ≤ 90) := by omega
    unfold upperC lowerC
    simp only [if_pos h, if_neg h2, ht]
    rw [if_pos (by omega : 65 ≤ c.toNat - 32 ∧ c.toNat - 32 ≤ 90)]
    have h3 : c.toNat - 32 + 32 = c.toNat := by omega
    rw [h3, Char.ofNat_toNat]
  · unfold upperC
    simp only [if_neg h]

theorem upperC_upperC (c : Char) : upperC (upperC c) = upperC c := by
  by_cases h : 97 ≤ c.toNat ∧ c.toNat ≤ 122
  · have ht : (Char.ofNat (c.toNat - 32)).toNat = c.toNat - 32 :=
      toNat_ofNat_of_lt _ (by omega)
    unfold upperC
    simp only [if_pos h, ht]
    rw [if_neg (by omega : ¬ (97 ≤ c.toNat - 32 ∧ c.toNat - 32 ≤ 122))]
  · unfold upperC
    simp only [if_neg h]

theorem lowerC_lowerC (c : Char) : lowerC (lowerC c) = lowerC c := by
  by_cases h : 65 ≤ c.toNat ∧ c.toNat ≤ 90
  · have ht : (Char.ofNat (c.toNat + 32)).toNat = c.toNat + 32 :=
      toNat_ofNat_of_lt _ (by omega)
    unfold lowerC
    simp only [if_pos h, ht]
    rw [if_neg (by omega : ¬ (65 ≤ c.toNat + 32 ∧ c.toNat + 32 ≤ 90))]
  · unfold lowerC
    simp only [if_neg h]

theorem isWs_upperC (c : Char) : isWs (upperC c) = isWs c := by
  by_cases h : 97 ≤ c.toNat ∧ c.toNat ≤ 122
  · have ht : (Char.ofNat (c.toNat - 32)).toNat = c.toNat - 32 :=
      toNat_ofNat_of_lt _ (by omega)
    unfold upperC isWs
    simp only [if_pos h, ht]
    rw [Bool.eq_iff_iff]
    simp only [Bool.or_eq_true, decide_eq_true_eq]
    omega
  · unfold upperC
    simp only [if_neg h]

/-! ## List-of-characters helpers -/

/-- Model of Python `str.lower` (ASCII). -/
def lowerL (l : List Char) : List Char := l.map lowerC

/-- Model of Python `str.upper` (ASCII). -/
def upperL (l : List Char) : List Char := l.map upperC

/-- Model of Python `str.strip()`: drop leading and trailing whitespace. -/
def stripL (l : List Char) : List Char :=
  List.rdropWhile isWs (l.dropWhile isWs)

theorem lowerL_upperL (l : List Char) : lowerL (upperL l) = lowerL l := by
  unfold lowerL upperL
  rw [List.map_map]
  exact List.map_congr_left (fun c _ => lowerC_upperC c)

theorem dropWhile_idem {α : Type} (p : α → Bool) (l : List α) :
    (l.dropWhile p).dropWhile p = l.dropWhile p := by
  induction l with
  | nil => rfl
  | cons c cs ih =>
    by_cases h : p c
    · simp only [List.dropWhile_cons, h, if_true, ih]
    · simp only [List.dropWhile_cons, h, if_false, Bool.false_eq_true]

theorem head_false_of_dropWhile_cons {α : Type} {p : α → Bool} {c : α} {cs : List α}
    (h : List.dropWhile p (c :: cs) = c :: cs) : p c = false := by
  by_cases hc : p c
  · exfalso
    rw [List.dropWhile_cons, if_pos hc] at h
    have := (List.dropWhile_suffix p (l := cs)).length_le
    have := congrArg List.length h
    simp at this
    omega
  · simpa using hc

theorem rdropWhile_idem {α : Type} (p : α → Bool) (l : List α) :
    List.rdropWhile p (List.rdropWhile p l) = List.rdropWhile p l := by
  simp only [List.rdropWhile, List.reverse_reverse, dropWhile_idem]

theorem dropWhile_rdropWhile {α : Type} {p : α → Bool} {l : List α}
    (h : l.dropWhile p = l) : (List.rdropWhile p l).dropWhile p = List.rdropWhile p l := by
  cases hrd : List.rdropWhile p l with
  | nil => rfl
  | cons c cs =>
    obtain ⟨t, ht⟩ := List.rdropWhile_prefix p l
    rw [hrd] at ht
    rw [← ht] at h
    have hpc : p c = false := by
      by_cases hc : p c
      · exfalso
        rw [List.cons_append, List.dropWhile_cons, if_pos hc] at h
        have h1 := (List.dropWhile_suffix p (l := cs ++ t)).length_le
        have h2 := congrArg List.length h
        simp at h1 h2
        omega
      · simpa using hc
    simp only [List.dropWhile_cons, hpc, Bool.false_eq_true, if_false]

theorem stripL_stripL (l : List Char) : stripL (stripL l) = stripL l := by
  unfold stripL
  rw [dropWhile_rdropWhile (dropWhile_idem isWs l), rdropWhile_idem]

theorem dropWhile_of_stripL {l : List Char} (h : stripL l = l) :
    l.dropWhile isWs = l := by
  have hsuf : l.dropWhile isWs <:+ l := List.dropWhile_suffix isWs
  have hpre := List.rdropWhile_prefix isWs (l.dropWhile isWs)
  have hlen1 : (stripL l).length ≤ (l.dropWhile isWs).length := hpre.length_le
  have hlen2 := hsuf.length_le
  exact hsuf.eq_of_length (by rw [h] at hlen1; omega)

theorem rdropWhile_of_stripL {l : List Char} (h : stripL l = l) :
    List.rdropWhile isWs l = l := by
  have hd := dropWhile_of_stripL h
  unfold stripL at h
  rw [hd] at h
  exact h

/-- First-character upper-casing, as Python `t[:1].upper() + t[1:]`. -/
def upperFirst : List Char → List Char
  | [] => []
  | c :: cs => upperC c :: cs

theorem lowerL_upperFirst (t : List Char) : lowerL (upperFirst t) = lowerL t := by
  cases t with
  | nil => rfl
  | cons c cs => simp [upperFirst, lowerL, lowerC_upperC]

theorem upperL_upperFirst (t : List Char) : upperL (upperFirst t) = upperL t := by
  cases t with
  | nil => rfl
  | cons c cs => simp [upperFirst, upperL, upperC_upperC]

theorem upperFirst_upperFirst (t : List Char) : upperFirst (upperFirst t) = upperFirst t := by
  cases t with
  | nil => rfl
  | cons c cs => simp [upperFirst, upperC_upperC]

theorem stripL_upperFirst {t : List Char} (h : stripL t = t) :
    stripL (upperFirst t) = upperFirst t := by
  cases t with
  | nil => rfl
  | cons c cs =>
    have hd : (c :: cs).dropWhile isWs = c :: cs := dropWhile_of_stripL h
    have hr : List.rdropWhile isWs (c :: cs) = c :: cs := rdropWhile_of_stripL h
    have hpc : isWs c = false := head_false_of_dropWhile_cons hd
    have hpc2 : isWs (upperC c) = false := by rw [isWs_upperC]; exact hpc
    show stripL (upperC c :: cs) = upperC c :: cs
    unfold stripL
    rw [List.dropWhile_cons, hpc2]
    simp only [Bool.false_eq_true, if_false]
    rw [List.rdropWhile_eq_self_iff]
    intro hne
    cases cs with
    | nil =>
      simp only [List.getLast_singleton]
      simp [hpc2]
    | cons d ds =>
      have hne2 : (c :: d :: ds) ≠ [] := by simp
      have hlast := List.rdropWhile_eq_self_iff.mp hr hne2
      have e1 : (c :: d :: ds).getLast hne2 = (d :: ds).getLast (by simp) :=
        List.getLast_cons (by simp)
      have e2 : (upperC c :: d :: ds).getLast hne = (d :: ds).getLast (by simp) :=
        List.getLast_cons (by simp)
      rw [e2]
      rw [e1] at hlast
      exact hlast

/-! ## Taxonomy store (`SKILL_ALIASES`, `SKILL_TAXONOMY`, `JOB_TITLES`,
`ORG_SUFFIXES`, `SKILL_STOPWORDS` from the source) -/

/-- The alias table `SKILL_ALIASES`, in source order (alias, canonical). -/
def SKILL_ALIASES : List (List Char × List Char) :=
  [("js".data, "JavaScript".data), ("ts".data, "TypeScript".data),
   ("py".data, "Python".data), ("nodejs".data, "Node.js".data),
   ("reactjs".data, "React".data), ("react.js".data, "React".data),
   ("node".data, "Node.js".data), ("postgres".data, "PostgreSQL".data),
   ("aws".data, "AWS".data), ("gcp".data, "Google Cloud".data),
   ("ms sql".data, "SQL Server".data), ("sql server".data, "SQL Server".data)]

/-- Lookup in an association list, as Python dict lookup keyed by string. -/
def alookup (k : List Char) : List (List Char × List Char) → Option (List Char)
  | [] => none
  | (a, b) :: rest => if a = k then some b else alookup k rest

theorem alookup_mem {k v : List Char} :
    ∀ {l : List (List Char × List Char)}, alookup k l = some v → (k, v) ∈ l := by
  intro l
  induction l with
  | nil => intro h; simp [alookup] at h
  | cons p rest ih =>
    intro h
    obtain ⟨a, b⟩ := p
    rw [alookup] at h
    by_cases hak : a = k
    · rw [if_pos hak] at h
      have hb : b = v := by injection h
      subst hak hb
      exact List.mem_cons_self _ _
    · rw [if_neg hak] at h
      exact List.mem_cons_of_mem _ (ih h)

/-- Body of `canonical_skill` after the initial strip, on an already
stripped token `t` (Python lines 199 through 215). -/
def canonSkillCore (t : List Char) : List Char :=
  (alookup (lowerL t) SKILL_ALIASES).getD
    (if lowerL t = "node".data ∨ lowerL t = "nodejs".data then "Node.js".data
     else if lowerL t = "reactjs".data ∨ lowerL t = "react.js".data then "React".data
     else if lowerL t = "postgres".data then "PostgreSQL".data
     else if upperL t = "AWS".data ∨ upperL t = "GCP".data then upperL t
     else if lowerL t = "c++".data ∨ lowerL t = "c#".data ∨ lowerL t = ".net".data then t
     else upperFirst t)

/-- Model of `canonical_skill` on character lists: strip, then apply the
alias and special-case logic. -/
def canonicalSkillL (tok : List Char) : List Char :=
  canonSkillCore (stripL tok)

/-- Model of `canonical_skill` (app.py lines 198 through 215). -/
def canonical_skill (token : String) : String :=
  List.asString (canonicalSkillL token.data)

theorem stripL_canonSkillCore {t : List Char} (h : stripL t = t) :
    stripL (canonSkillCore t) = canonSkillCore t := by
  unfold canonSkillCore
  cases halias : alookup (lowerL t) SKILL_ALIASES with
  | some v =>
    rw [Option.getD_some]
    have hv : v ∈ SKILL_ALIASES.map Prod.snd :=
      List.mem_map_of_mem _ (alookup_mem halias)
    fin_cases hv <;> decide
  | none =>
    rw [Option.getD_none]
    by_cases h1 : lowerL t = "node".data ∨ lowerL t = "nodejs".data
    · rw [if_pos h1]; decide
    rw [if_neg h1]
    by_cases h2 : lowerL t = "reactjs".data ∨ lowerL t = "react.js".data
    · rw [if_pos h2]; decide
    rw [if_neg h2]
    by_cases h3 : lowerL t = "postgres".data
    · rw [if_pos h3]; decide
    rw [if_neg h3]
    by_cases h4 : upperL t = "AWS".data ∨ upperL t = "GCP".data
    · rw [if_pos h4]
      rcases h4 with h4 | h4 <;> rw [h4] <;> decide
    rw [if_neg h4]
    by_cases h5 : lowerL t = "c++".data ∨ lowerL t = "c#".data ∨ lowerL t = ".net".data
    · rw [if_pos h5]; exact h
    rw [if_neg h5]
    exact stripL_upperFirst h

theorem canonSkillCore_idem (t : List Char) :
    canonSkillCore (canonSkillCore t) = canonSkillCore t := by
  cases halias : alookup (lowerL t) SKILL_ALIASES with
  | some v =>
    have hx : canonSkillCore t = v := by
      unfold canonSkillCore
      rw [halias, Option.getD_some]
    rw [hx]
    have hv : v ∈ SKILL_ALIASES.map Prod.snd :=
      List.mem_map_of_mem _ (alookup_mem halias)
    fin_cases hv <;> decide
  | none =>
    by_cases h1 : lowerL t = "node".data ∨ lowerL t = "nodejs".data
    · have hx : canonSkillCore t = "Node.js".data := by
        unfold canonSkillCore
        rw [halias, Option.getD_none, if_pos h1]
      rw [hx]; decide
    by_cases h2 : lowerL t = "reactjs".data ∨ lowerL t = "react.js".data
    · have hx : canonSkillCore t = "React".data := by
        unfold canonSkillCore
        rw [halias, Option.getD_none, if_neg h1, if_pos h2]
      rw [hx]; decide
    by_cases h3 : lowerL t = "postgres".data
    · have hx : canonSkillCore t = "PostgreSQL".data := by
        unfold canonSkillCore
        rw [halias, Option.getD_none, if_neg h1, if_neg h2, if_pos h3]
      rw [hx]; decide
    by_cases h4 : upperL t = "AWS".data ∨ upperL t = "GCP".data
    · have hx : canonSkillCore t = upperL t := by
        unfold canonSkillCore
        rw [halias, Option.getD_none, if_neg h1, if_neg h2, if_neg h3, if_pos h4]
      rcases h4 with h4 | h4
      · rw [hx, h4]; decide
      · exfalso
        have hlow : lowerL t = "gcp".data := by
          rw [← lowerL_upperL t, h4]; decide
        rw [hlow] at halias
        exact absurd halias (by decide)
    by_cases h5 : lowerL t = "c++".data ∨ lowerL t = "c#".data ∨ lowerL t = ".net".data
    · have hx : canonSkillCore t = t := by
        unfold canonSkillCore
        rw [halias, Option.getD_none, if_neg h1, if_neg h2, if_neg h3, if_neg h4, if_pos h5]
      rw [hx, hx]
    have hx : canonSkillCore t = upperFirst t := by
      unfold canonSkillCore
      rw [halias, Option.getD_none, if_neg h1, if_neg h2, if_neg h3, if_neg h4, if_neg h5]
    rw [hx]
    unfold canonSkillCore
    rw [lowerL_upperFirst, upperL_upperFirst, halias, Option.getD_none,
      if_neg h1, if_neg h2, if_neg h3, if_neg h4, if_neg h5]
    exact upperFirst_upperFirst t

/-- C3: `canonical_skill` is total (a Lean function on all of `String`,
returning `""` on `""`) and idempotent: applying it twice equals applying
it once, for every input string. -/
theorem C3_canonical_skill_total_idempotent :
    (∀ x : String, canonical_skill (canonical_skill x) = canonical_skill x) ∧
    canonical_skill "" = "" := by
  constructor
  · intro x
    show List.asString (canonSkillCore (stripL (List.asString (canonSkillCore (stripL x.data))).data)) =
      List.asString (canonSkillCore (stripL x.data))
    have hdata : (List.asString (canonSkillCore (stripL x.data))).data =
        canonSkillCore (stripL x.data) := rfl
    rw [hdata, stripL_canonSkillCore (stripL_stripL x.data), canonSkillCore_idem]
  · decide

/-! ## Result merger (`merge_sets`, app.py lines 323 through 329) -/

/-- String wrapper for `lowerL` (Python `str.lower`, ASCII). -/
def pyLower (s : String) : String := List.asString (lowerL s.data)

/-- String wrapper for `stripL` (Python `str.strip()`). -/
def pyStrip (s : String) : String := List.asString (stripL s.data)

/-- Lexicographic comparison of character lists by code point, as Python
string comparison. -/
def lexLE : List Char → List Char → Bool
  | [], _ => true
  | _ :: _, [] => false
  | c :: cs, d :: ds =>
    if c.toNat < d.toNat then true
    else if d.toNat < c.toNat then false
    else lexLE cs ds

theorem lexLE_total (a b : List Char) : lexLE a b = true ∨ lexLE b a = true := by
  induction a generalizing b with
  | nil => exact Or.inl rfl
  | cons c cs ih =>
    cases b with
    | nil => exact Or.inr rfl
    | cons d ds =>
      rcases Nat.lt_trichotomy c.toNat d.toNat with h | h | h
      · left
        rw [lexLE, if_pos h]
      · rcases ih ds with h2 | h2
        · left
          rw [lexLE, if_neg (by omega), if_neg (by omega)]
          exact h2
        · right
          rw [lexLE, if_neg (by omega), if_neg (by omega)]
          exact h2
      · right
        rw [lexLE, if_pos h]

theorem lexLE_trans {a b c : List Char} (h1 : lexLE a b = true) (h2 : lexLE b c = true) :
    lexLE a c = true := by
  induction a generalizing b c with
  | nil => rfl
  | cons x xs ih =>
    cases b with
    | nil => simp [lexLE] at h1
    | cons y ys =>
      cases c with
      | nil => simp [lexLE] at h2
      | cons z zs =>
        rw [lexLE] at h1 h2 ⊢
        by_cases hxy : x.toNat < y.toNat
        · by_cases hyz : y.toNat < z.toNat
          · rw [if_pos (by omega)]
          · rw [if_neg hyz] at h2
            by_cases hzy : z.toNat < y.toNat
            · rw [if_pos hzy] at h2
              exact absurd h2 (by simp)
            · rw [if_pos (by omega)]
        · rw [if_neg hxy] at h1
          by_cases hyx : y.toNat < x.toNat
          · rw [if_pos hyx] at h1
            exact absurd h1 (by simp)
          · rw [if_neg hyx] at h1
            by_cases hyz : y.toNat < z.toNat
            · rw [if_pos (by omega)]
            · rw [if_neg hyz] at h2
              by_cases hzy : z.toNat < y.toNat
              · rw [if_pos hzy] at h2
                exact absurd h2 (by simp)
              · rw [if_neg hzy] at h2
                rw [if_neg (by omega), if_neg (by omega)]
                exact ih h1 h2

theorem lexLE_antisymm {a b : List Char} (h1 : lexLE a b = true) (h2 : lexLE b a = true) :
    a = b := by
  induction a generalizing b with
  | nil =>
    cases b with
    | nil => rfl
    | cons d ds => simp [lexLE] at h2
  | cons c cs ih =>
    cases b with
    | nil => simp [lexLE] at h1
    | cons d ds =>
      rw [lexLE] at h1 h2
      by_cases hcd : c.toNat < d.toNat
      · rw [if_neg (by omega), if_pos hcd] at h2
        exact absurd h2 (by simp)
      · rw [if_neg hcd] at h1
        by_cases hdc : d.toNat < c.toNat
        · rw [if_pos hdc] at h1
          exact absurd h1 (by simp)
        · rw [if_neg hdc] at h1
          rw [if_neg hcd] at h2
          rw [if_neg hdc] at h2
          have hc : c = d := by
            have : c.toNat = d.toNat := by omega
            calc c = Char.ofNat c.toNat := (Char.ofNat_toNat c).symm
              _ = Char.ofNat d.toNat := by rw [this]
              _ = d := Char.ofNat_toNat d
          rw [hc, ih h1 h2]

/-- Sort key of `sorted(..., key=lambda x: x.lower())`. -/
def keyLE (a b : String) : Prop := lexLE (lowerL a.data) (lowerL b.data) = true

instance : DecidableRel keyLE := fun a b =>
  inferInstanceAs (Decidable (lexLE (lowerL a.data) (lowerL b.data) = true))

instance : IsTotal String keyLE := ⟨fun _ _ => lexLE_total _ _⟩

instance : IsTrans String keyLE := ⟨fun _ _ _ h1 h2 => lexLE_trans h1 h2⟩

/-- Model of `merge_sets`: Python inserts `item.strip()` for every item of
every input set into an unordered hash set and stable sorts the set's
enumeration by lower-cased key (`sorted(list(merged), key=lambda x: x.lower())`,
Timsort being stable).  `iter` stands for the enumeration order the hash set
produces; insertion sort is stable in the same sense as Timsort. -/
def merge_sets_from_iter (iter : List String) : List String :=
  List.insertionSort keyLE iter

/-- The enumeration `iter` is valid for the input `sets` when it lists the
distinct trimmed elements of the union, in some order. -/
def validEnum (sets : List (List String)) (iter : List String) : Prop :=
  iter.Perm ((sets.flatten.map pyStrip).dedup)

/-- Globally antisymmetric order used to derive uniqueness of the sorted
output on tie-free inputs. -/
def keyOrd (a b : String) : Prop := keyLE a b ∧ (pyLower a = pyLower b → a = b)

instance : IsAntisymm String keyOrd :=
  ⟨fun _ _ h1 h2 => h1.2 (congrArg List.asString (lexLE_antisymm h1.1 h2.1))⟩

theorem sorted_keyOrd_of_inj {iter : List String}
    (hinj : ∀ a ∈ iter, ∀ b ∈ iter, pyLower a = pyLower b → a = b) :
    List.Sorted keyOrd (merge_sets_from_iter iter) := by
  have hs : List.Sorted keyLE (merge_sets_from_iter iter) :=
    List.sorted_insertionSort keyLE iter
  have hperm : (merge_sets_from_iter iter).Perm iter :=
    List.perm_insertionSort keyLE iter
  have hinj2 : List.Pairwise (fun a b => pyLower a = pyLower b → a = b)
      (merge_sets_from_iter iter) := by
    apply List.pairwise_of_forall_mem_list
    intro a ha b hb
    exact hinj a (hperm.mem_iff.mp ha) b (hperm.mem_iff.mp hb)
  exact (hs.and hinj2).imp (fun h => h)

/-- C5 (amended): `merge_sets` returns the union of its inputs with every
element trimmed, deduplicated by exact post-trim value and sorted
case-insensitively; whenever no two distinct post-trim elements share the
same lower-cased form, this output is uniquely determined by the input sets,
independent of the unordered set-iteration order.  (With such case-insensitive
ties the relative order of the tied elements follows set-iteration order and
is not uniquely determined; see the counterexample.) -/
theorem C5_merge_sets_sorted_deterministic
    (sets : List (List String)) (iter1 iter2 : List String)
    (h1 : validEnum sets iter1) (h2 : validEnum sets iter2)
    (hinj : ∀ a ∈ iter1, ∀ b ∈ iter1, pyLower a = pyLower b → a = b) :
    merge_sets_from_iter iter1 = merge_sets_from_iter iter2 ∧
    (merge_sets_from_iter iter1).Perm ((sets.flatten.map pyStrip).dedup) ∧
    List.Sorted keyLE (merge_sets_from_iter iter1) := by
  have h12 : iter1.Perm iter2 := h1.trans h2.symm
  have hinj2 : ∀ a ∈ iter2, ∀ b ∈ iter2, pyLower a = pyLower b → a = b := by
    intro a ha b hb
    exact hinj a (h12.mem_iff.mpr ha) b (h12.mem_iff.mpr hb)
  refine ⟨?_, ?_, List.sorted_insertionSort keyLE iter1⟩
  · apply List.eq_of_perm_of_sorted
      (((List.perm_insertionSort keyLE iter1).trans h12).trans
        (List.perm_insertionSort keyLE iter2).symm)
      (sorted_keyOrd_of_inj hinj) (sorted_keyOrd_of_inj hinj2)
  · exact (List.perm_insertionSort keyLE iter1).trans h1

/-- Witness for C5: on the tie-free input set {"Java ", "Go"} the two
enumeration orders give the same sorted output. -/
theorem C5_merge_sets_witness :
    merge_sets_from_iter ["Java", "Go"] = merge_sets_from_iter ["Go", "Java"] :=
  (C5_merge_sets_sorted_deterministic [["Java ", "Go"]] ["Java", "Go"] ["Go", "Java"]
    (by unfold validEnum; decide) (by unfold validEnum; decide) (by decide)).1

/-- C5 counterexample: the input set with elements "Java" and "java" admits
two valid set-iteration orders whose merged outputs differ, so the output of
`merge_sets` is not uniquely determined by the input sets (the case-insensitive
sort key makes the stable sort keep the unordered iteration order of ties). -/
theorem C5_merge_sets_counterexample :
    validEnum [["Java", "java"]] ["Java", "java"] ∧
    validEnum [["Java", "java"]] ["java", "Java"] ∧
    merge_sets_from_iter ["Java", "java"] ≠ merge_sets_from_iter ["java", "Java"] :=
  ⟨by unfold validEnum; decide, by unfold validEnum; decide, by decide⟩

/-! ## Text normalizer and dictionary extractors (app.py lines 191 through 306) -/

/-- Characters kept by `normalize_text`: `[a-z0-9+.#]`. -/
def keepChar (c : Char) : Bool :=
  (97 ≤ c.toNat && c.toNat ≤ 122) || (48 ≤ c.toNat && c.toNat ≤ 57) ||
    c = '+' || c = '.' || c = '#'

/-- Replace every maximal run of non-kept characters by one space
(`re.sub(r"[^a-z0-9+.#]+", " ", ...)`). -/
def squashNonKeep : List Char → List Char
  | [] => []
  | [c] => if keepChar c then [c] else [' ']
  | c :: d :: rest =>
    if ¬ keepChar c ∧ ¬ keepChar d then squashNonKeep (d :: rest)
    else (if keepChar c then c else ' ') :: squashNonKeep (d :: rest)

/-- Model of `normalize_text` (app.py lines 191 through 195). -/
def normalize_text (text : List Char) : List Char :=
  ' ' :: squashNonKeep (lowerL text) ++ [' ']

/-- Python regex word characters (`\w`, ASCII): letters, digits, underscore. -/
def wordChar (c : Char) : Bool :=
  (97 ≤ c.toNat && c.toNat ≤ 122) || (65 ≤ c.toNat && c.toNat ≤ 90) ||
    (48 ≤ c.toNat && c.toNat ≤ 57) || c = '_'

/-- Word-character test of an optional character; the virtual characters
before the start and after the end of the text are non-word. -/
def wordCharOpt : Option Char → Bool
  | none => false
  | some c => wordChar c

/-- If `txt` starts with `pat`, return the rest of `txt` after it. -/
def matchesHere : List Char → List Char → Option (List Char)
  | [], txt => some txt
  | _ :: _, [] => none
  | p :: ps, t :: ts => if p = t then matchesHere ps ts else none

/-- Scanner for `re.search(rf"\b{re.escape(pat)}\b", txt)`: `pat` occurs in
`txt` with a word boundary on each side.  `prev` is the character before the
current position. -/
def wwGo (pat : List Char) (wfirst wlast : Bool) : Option Char → List Char → Bool
  | _, [] => false
  | prev, c :: rest =>
    (match matchesHere pat (c :: rest) with
     | some after => (wordCharOpt prev != wfirst) && (wlast != wordCharOpt after.head?)
     | none => false)
    || wwGo pat wfirst wlast (some c) rest

/-- Whole-word (word-boundary delimited) occurrence of the literal `pat`. -/
def searchWordBounded (pat txt : List Char) : Bool :=
  wwGo pat (wordCharOpt pat.head?) (wordCharOpt pat.getLast?) none txt

/-- The keywords of `SKILL_TAXONOMY`, all categories unioned, in source
order (the per-category braces are Python sets, whose iteration order is
irrelevant to everything proved here). -/
def SKILL_TAXONOMY_KEYWORDS : List (List Char) :=
  ["Java".data, "Python".data, "JavaScript".data, "TypeScript".data, "C++".data,
   "C#".data, "Go".data, "Ruby".data, "PHP".data, "Rust".data, "Kotlin".data,
   "Spring Boot".data, "Spring".data, "React".data, "Angular".data, "Vue".data,
   "Django".data, "Flask".data, "Express".data, "FastAPI".data, "Hibernate".data,
   ".NET".data,
   "PostgreSQL".data, "MySQL".data, "MongoDB".data, "Redis".data,
   "Elasticsearch".data, "SQLite".data, "Oracle".data, "SQL Server".data,
   "AWS".data, "Azure".data, "Google Cloud".data, "GCP".data, "Docker".data,
   "Kubernetes".data, "Terraform".data, "Jenkins".data, "GitHub Actions".data,
   "TensorFlow".data, "PyTorch".data, "scikit-learn".data, "NumPy".data,
   "Pandas".data,
   "Git".data, "Maven".data, "Gradle".data, "Jira".data]

/-- The `SKILL_STOPWORDS` set of the source. -/
def SKILL_STOPWORDS : List (List Char) :=
  ["intern".data, "junior".data, "senior".data, "fresher".data, "trainee".data,
   "lead".data, "manager".data, "associate".data]

/-- The `JOB_TITLES` set of the source. -/
def JOB_TITLES : List (List Char) :=
  ["Software Engineer".data, "Senior Software Engineer".data,
   "Backend Developer".data, "Frontend Developer".data,
   "Full Stack Developer".data, "Data Scientist".data,
   "Machine Learning Engineer".data, "DevOps Engineer".data, "SRE".data,
   "QA Engineer".data, "Android Developer".data, "iOS Developer".data]

/-- The `ORG_SUFFIXES` list of the source, in source order. -/
def ORG_SUFFIXES : List (List Char) :=
  ["Inc".data, "Ltd".data, "LLC".data, "Pvt".data, "Technologies".data,
   "Labs".data, "Systems".data, "Solutions".data, "Corp".data, "Company".data]

/-- Model of `extract_skills_dict` (app.py lines 271 through 287).  The Python
set of results is modeled as the list of matches in source iteration order;
only membership matters downstream. -/
def extract_skills_dict (text : List Char) : List (List Char) :=
  let norm := normalize_text text
  let foundKw := (SKILL_TAXONOMY_KEYWORDS.filter
    (fun kw => searchWordBounded (lowerL kw) norm)).map canonicalSkillL
  let foundAlias := (SKILL_ALIASES.filter
    (fun p => searchWordBounded p.1 norm)).map (fun p => canonicalSkillL p.2)
  (foundKw ++ foundAlias).filter (fun s => ¬ lowerL s ∈ SKILL_STOPWORDS)

/-- Model of `extract_job_titles_dict` (app.py lines 290 through 297). -/
def extract_job_titles_dict (text : List Char) : List (List Char) :=
  JOB_TITLES.filter (fun t => searchWordBounded (lowerL t) (normalize_text text))

/-- Characters of the class `[A-Za-z0-9&.,\- ]` in the organization regex. -/
def orgClassChar (c : Char) : Bool :=
  (65 ≤ c.toNat && c.toNat ≤ 90) || (97 ≤ c.toNat && c.toNat ≤ 122) ||
    (48 ≤ c.toNat && c.toNat ≤ 57) || c = '&' || c = '.' || c = ',' ||
    c = '-' || c = ' '

/-- Try the organization suffix alternation in source order at the start of
`t`, requiring a trailing word boundary; returns the suffix and the rest. -/
def orgTrySuffix : List (List Char) → List Char → Option (List Char × List Char)
  | [], _ => none
  | s :: ss, t =>
    match matchesHere s t with
    | some after =>
      if wordCharOpt after.head? then orgTrySuffix ss t else some (s, after)
    | none => orgTrySuffix ss t

/-- Match `\s+` (greedy, longest run first) followed by a suffix at `t`;
`j` is the run length currently tried. -/
def orgWsSuffix (t : List Char) : Nat → Option (List Char × List Char)
  | 0 => none
  | j + 1 =>
    match orgTrySuffix ORG_SUFFIXES (t.drop (j + 1)) with
    | some (s, after) => some (t.take (j + 1) ++ s, after)
    | none => orgWsSuffix t j

/-- Lazy `[A-Za-z0-9&.,\- ]+?` of length `k` (shortest first, `r` tries
left), then whitespace and the suffix. -/
def orgBodyGo (t : List Char) (k : Nat) : Nat → Option (List Char × List Char)
  | 0 => none
  | r + 1 =>
    let rest := t.drop k
    match orgWsSuffix rest (rest.takeWhile isWs).length with
    | some (cons, after) => some (t.take k ++ cons, after)
    | none => orgBodyGo t (k + 1) r

/-- Attempt the full organization pattern at the current position:
word boundary, `[A-Z]`, lazy body, whitespace, suffix, word boundary. -/
def orgMatchAt (prev : Option Char) (txt : List Char) : Option (List Char × List Char) :=
  match txt with
  | [] => none
  | c :: rest =>
    if ¬ wordCharOpt prev ∧ (65 ≤ c.toNat ∧ c.toNat ≤ 90) then
      match orgBodyGo rest 1 (rest.takeWhile orgClassChar).length with
      | some (cons, after) => some (c :: cons, after)
      | none => none
    else none

/-- The `finditer` loop of `extract_orgs_dict`: scan left to right, emit
`m.group(0).strip()` for each non-overlapping match. -/
def orgFindGo : Nat → Option Char → List Char → List (List Char)
  | 0, _, _ => []
  | _ + 1, _, [] => []
  | fuel + 1, prev, c :: rest =>
    match orgMatchAt prev (c :: rest) with
    | some (cons, after) => stripL cons :: orgFindGo fuel (cons.getLast?) after
    | none => orgFindGo fuel (some c) rest

/-- Model of `extract_orgs_dict` (app.py lines 300 through 306); the Python
set is modeled as the list of matches in scan order. -/
def extract_orgs_dict (text : List Char) : List (List Char) :=
  orgFindGo text.length none text

/-! ## Lemmas for C6 (dictionary-only mode) -/

theorem matchesHere_self (l r : List Char) : matchesHere l (l ++ r) = some r := by
  induction l with
  | nil => rfl
  | cons c cs ih => simp [matchesHere, ih]

theorem matchesHere_eq {p t a : List Char} (h : matchesHere p t = some a) : t = p ++ a := by
  induction p generalizing t with
  | nil =>
    simp [matchesHere] at h
    rw [h]; rfl
  | cons c cs ih =>
    cases t with
    | nil => simp [matchesHere] at h
    | cons d ds =>
      rw [matchesHere] at h
      by_cases hcd : c = d
      · rw [if_pos hcd] at h
        rw [← hcd, ih h, List.cons_append]
      · rw [if_neg hcd] at h
        exact absurd h (by simp)

/-- A whole-word occurrence of `kw` in `norm`: `kw` stands between two
spaces.  (Every kept word of `normalize_text` output is delimited this way
because the output is padded with one leading and one trailing space and all
separator runs collapse to single spaces.) -/
def containsToken (kw norm : List Char) : Prop :=
  ∃ pre post, norm = pre ++ ' ' :: (kw ++ ' ' :: post)

theorem searchWordBounded_of_containsToken {kw : List Char} (hne : kw ≠ [])
    (h1 : wordCharOpt kw.head? = true) (h2 : wordCharOpt kw.getLast? = true)
    {norm : List Char} (hocc : containsToken kw norm) :
    searchWordBounded kw norm = true := by
  obtain ⟨pre, post, rfl⟩ := hocc
  unfold searchWordBounded
  rw [h1, h2]
  suffices h : ∀ (pre2 : List Char) (prev : Option Char),
      wwGo kw true true prev (pre2 ++ ' ' :: (kw ++ ' ' :: post)) = true from h pre none
  intro pre2
  induction pre2 with
  | nil =>
    intro prev
    rw [List.nil_append]
    simp only [wwGo]
    rw [Bool.or_eq_true]
    right
    cases kw with
    | nil => exact absurd rfl hne
    | cons k0 kr =>
      rw [List.cons_append]
      simp only [wwGo]
      rw [← List.cons_append, matchesHere_self, Bool.or_eq_true]
      left
      have hk0 : wordChar k0 = true := by simpa [wordCharOpt] using h1
      simp [wordCharOpt, hk0, wordChar]
  | cons c cs ih =>
    intro prev
    rw [List.cons_append]
    simp only [wwGo]
    rw [Bool.or_eq_true]
    right
    exact ih (some c)

theorem orgTrySuffix_spec {ss : List (List Char)} {t s after : List Char}
    (h : orgTrySuffix ss t = some (s, after)) : s ∈ ss ∧ s <+: t := by
  induction ss with
  | nil => simp [orgTrySuffix] at h
  | cons s0 ss2 ih =>
    cases hm : matchesHere s0 t with
    | some a =>
      simp only [orgTrySuffix, hm] at h
      by_cases hw : wordCharOpt a.head? = true
      · rw [if_pos hw] at h
        obtain ⟨hmem, hpre⟩ := ih h
        exact ⟨List.mem_cons_of_mem _ hmem, hpre⟩
      · rw [if_neg hw] at h
        have h3 : (s0, a) = (s, after) := by injection h
        have h4 : s0 = s := congrArg Prod.fst h3
        have h5 : a = after := congrArg Prod.snd h3
        subst h4
        subst h5
        exact ⟨List.mem_cons_self _ _, ⟨a, (matchesHere_eq hm).symm⟩⟩
    | none =>
      simp only [orgTrySuffix, hm] at h
      obtain ⟨hmem, hpre⟩ := ih h
      exact ⟨List.mem_cons_of_mem _ hmem, hpre⟩

theorem orgWsSuffix_infix {t cons after : List Char} :
    ∀ {j : Nat}, orgWsSuffix t j = some (cons, after) →
    ∃ s ∈ ORG_SUFFIXES, s <:+: t := by
  intro j
  induction j with
  | zero => intro h; simp [orgWsSuffix] at h
  | succ j ih =>
    intro h
    rw [orgWsSuffix] at h
    cases hts : orgTrySuffix ORG_SUFFIXES (t.drop (j + 1)) with
    | some pr =>
      obtain ⟨s, a⟩ := pr
      obtain ⟨hmem, hpre⟩ := orgTrySuffix_spec hts
      exact ⟨s, hmem, hpre.isInfix.trans (List.drop_suffix _ _).isInfix⟩
    | none =>
      rw [hts] at h
      exact ih h

theorem orgBodyGo_infix {t cons after : List Char} :
    ∀ {r k : Nat}, orgBodyGo t k r = some (cons, after) →
    ∃ s ∈ ORG_SUFFIXES, s <:+: t := by
  intro r
  induction r with
  | zero => intro k h; simp [orgBodyGo] at h
  | succ r ih =>
    intro k h
    rw [orgBodyGo] at h
    cases hws : orgWsSuffix (t.drop k) ((t.drop k).takeWhile isWs).length with
    | some pr =>
      obtain ⟨cs, a⟩ := pr
      obtain ⟨s, hmem, hinf⟩ := orgWsSuffix_infix hws
      exact ⟨s, hmem, hinf.trans (List.drop_suffix _ _).isInfix⟩
    | none =>
      rw [hws] at h
      exact ih h

theorem orgMatchAt_infix {prev : Option Char} {txt cons after : List Char}
    (h : orgMatchAt prev txt = some (cons, after)) :
    ∃ s ∈ ORG_SUFFIXES, s <:+: txt := by
  cases txt with
  | nil => simp [orgMatchAt] at h
  | cons c rest =>
    rw [orgMatchAt] at h
    by_cases hb : ¬ wordCharOpt prev ∧ (65 ≤ c.toNat ∧ c.toNat ≤ 90)
    · rw [if_pos hb] at h
      cases hbody : orgBodyGo rest 1 (rest.takeWhile orgClassChar).length with
      | some pr =>
        obtain ⟨cs, a⟩ := pr
        obtain ⟨s, hmem, hinf⟩ := orgBodyGo_infix hbody
        exact ⟨s, hmem, hinf.trans (List.suffix_cons c rest).isInfix⟩
      | none => rw [hbody] at h; exact absurd h (by simp)
    · rw [if_neg hb] at h
      exact absurd h (by simp)

theorem orgFindGo_nil {text : List Char}
    (hno : ∀ s ∈ ORG_SUFFIXES, ¬ s <:+: text) :
    ∀ (fuel : Nat) (prev : Option Char) (txt : List Char),
    txt <:+: text → orgFindGo fuel prev txt = [] := by
  intro fuel
  induction fuel with
  | zero => intro prev txt _; rfl
  | succ fuel ih =>
    intro prev txt hinf
    cases txt with
    | nil => rfl
    | cons c rest =>
      rw [orgFindGo]
      cases horg : orgMatchAt prev (c :: rest) with
      | some pr =>
        exfalso
        obtain ⟨cons, after⟩ := pr
        obtain ⟨s, hmem, hinf2⟩ := orgMatchAt_infix horg
        exact hno s hmem (hinf2.trans hinf)
      | none =>
        exact ih (some c) rest ((List.suffix_cons c rest).isInfix.trans hinf)

/-- C6 (amended): with the learned model off, the extractors are dictionary
pure.  Skill extraction returns a non-empty set whenever the text contains,
as a whole word, a taxonomy term whose lower-cased form begins and ends with
a regex word character and whose canonical form is not a stop-word (terms
such as "C++", "C#" and ".NET" begin or end with non-word characters and are
invisible to the word-boundary search; see the counterexample).  Job-title
extraction returns a non-empty set whenever a known title occurs as a whole
word.  Organization extraction returns the empty set, not an error, on any
text containing no occurrence of an organization suffix. -/
theorem C6_dictionary_only_amended :
    (∀ (text kw : List Char), kw ∈ SKILL_TAXONOMY_KEYWORDS →
      wordCharOpt (lowerL kw).head? = true →
      wordCharOpt (lowerL kw).getLast? = true →
      ¬ lowerL (canonicalSkillL kw) ∈ SKILL_STOPWORDS →
      containsToken (lowerL kw) (normalize_text text) →
      extract_skills_dict text ≠ []) ∧
    (∀ (text title : List Char), title ∈ JOB_TITLES →
      containsToken (lowerL title) (normalize_text text) →
      extract_job_titles_dict text ≠ []) ∧
    (∀ text : List Char, (∀ s ∈ ORG_SUFFIXES, ¬ s <:+: text) →
      extract_orgs_dict text = []) := by
  refine ⟨?_, ?_, ?_⟩
  · intro text kw hmem hh hl hstop hocc
    have hne : lowerL kw ≠ [] := by
      intro hnil
      rw [hnil] at hh
      simp [wordCharOpt] at hh
    have hsearch : searchWordBounded (lowerL kw) (normalize_text text) = true :=
      searchWordBounded_of_containsToken hne hh hl hocc
    have h1 : kw ∈ SKILL_TAXONOMY_KEYWORDS.filter
        (fun kw2 => searchWordBounded (lowerL kw2) (normalize_text text)) :=
      List.mem_filter.mpr ⟨hmem, hsearch⟩
    have h2 : canonicalSkillL kw ∈ (SKILL_TAXONOMY_KEYWORDS.filter
        (fun kw2 => searchWordBounded (lowerL kw2) (normalize_text text))).map canonicalSkillL :=
      List.mem_map_of_mem _ h1
    have h4 : canonicalSkillL kw ∈ extract_skills_dict text := by
      unfold extract_skills_dict
      exact List.mem_filter.mpr ⟨List.mem_append_left _ h2, by simpa using hstop⟩
    exact List.ne_nil_of_mem h4
  · intro text title hmem hocc
    have hne : lowerL title ≠ [] := by
      fin_cases hmem <;> decide
    have hh : wordCharOpt (lowerL title).head? = true := by
      fin_cases hmem <;> decide
    have hl : wordCharOpt (lowerL title).getLast? = true := by
      fin_cases hmem <;> decide
    have hsearch : searchWordBounded (lowerL title) (normalize_text text) = true :=
      searchWordBounded_of_containsToken hne hh hl hocc
    have h1 : title ∈ extract_job_titles_dict text := by
      unfold extract_job_titles_dict
      exact List.mem_filter.mpr ⟨hmem, hsearch⟩
    exact List.ne_nil_of_mem h1
  · intro text hno
    exact orgFindGo_nil hno _ none text (List.infix_rfl)

/-- Witness for C6: "Java" and "QA Engineer" occur as whole words and are
extracted; a text without organization suffixes yields the empty set. -/
theorem C6_dictionary_only_witness :
    extract_skills_dict "I know Java".data ≠ [] ∧
    extract_job_titles_dict "was a QA Engineer".data ≠ [] ∧
    extract_orgs_dict "no orgs mentioned here".data = [] := by
  refine ⟨?_, ?_, ?_⟩
  · exact C6_dictionary_only_amended.1 _ "Java".data (by decide) (by decide)
      (by decide) (by decide) ⟨" i know".data, [], by decide⟩
  · exact C6_dictionary_only_amended.2.1 _ "QA Engineer".data (by decide)
      ⟨" was a".data, [], by decide⟩
  · exact C6_dictionary_only_amended.2.2 _ (by decide)

/-- C6 counterexample: "C++" is a taxonomy vocabulary term and occurs as a
whole space-delimited word, yet dictionary skill extraction returns the empty
set — the pattern `\b c\+\+ \b` requires a word character right after "c++",
so a standalone "C++" can never match. -/
theorem C6_dictionary_only_counterexample :
    "C++".data ∈ SKILL_TAXONOMY_KEYWORDS ∧
    "C++".data ∈ ("Skilled in C++".data.splitOn ' ') ∧
    extract_skills_dict "Skilled in C++".data = [] :=
  ⟨by decide, by decide, by decide⟩

/-! ## Phone extraction (app.py lines 230 through 245) -/

/-- ASCII digit. -/
def isDigitC (c : Char) : Bool := 48 ≤ c.toNat && c.toNat ≤ 57

/-- The separator class `[\s-]` of the phone regex. -/
def isSepC (c : Char) : Bool := isWs c || c = '-'

/-- Exactly `n` digits from the front of `t`. -/
def takeDigits : Nat → List Char → Option (List Char × List Char)
  | 0, t => some ([], t)
  | _ + 1, [] => none
  | n + 1, c :: rest =>
    if isDigitC c then
      match takeDigits n rest with
      | some (ds, r) => some (c :: ds, r)
      | none => none
    else none

/-- All outcomes of an optional one-character class `X?`, preferring the
consuming alternative, as Python's greedy `?`. -/
def classOpt (p : Char → Bool) (t : List Char) : List (List Char × List Char) :=
  match t with
  | d :: rest => if p d then [([d], rest), ([], t)] else [([], t)]
  | [] => [([], t)]

/-- Sequencing of list-of-successes pieces, preserving preference order. -/
def seqP (xs : List (List Char × List Char))
    (f : List Char → List (List Char × List Char)) : List (List Char × List Char) :=
  xs.flatMap (fun a => (f a.2).map (fun b => (a.1 ++ b.1, b.2)))

/-- Greedy `\d{1,3}`: three digits first, then two, then one. -/
def digits13 (t : List Char) : List (List Char × List Char) :=
  [3, 2, 1].filterMap (fun n => takeDigits n t)

/-- Exactly `n` digits as a list-of-successes piece. -/
def digitsExact (n : Nat) (t : List Char) : List (List Char × List Char) :=
  match takeDigits n t with
  | some pr => [pr]
  | none => []

/-- The optional country group `(?:\+?\d{1,3}[\s-]?)?`. -/
def pieceCountry (t : List Char) : List (List Char × List Char) :=
  (seqP (seqP (classOpt (fun c => c = '+') t) digits13) (classOpt isSepC)) ++ [([], t)]

/-- The optional area group `(?:\(?\d{3}\)?[\s-]?)?`. -/
def pieceArea (t : List Char) : List (List Char × List Char) :=
  (seqP (seqP (seqP (classOpt (fun c => c = '(') t) (digitsExact 3))
    (classOpt (fun c => c = ')'))) (classOpt isSepC)) ++ [([], t)]

/-- The mandatory core `\d{3}[\s-]?\d{4}`. -/
def pieceCore (t : List Char) : List (List Char × List Char) :=
  seqP (seqP (digitsExact 3 t) (classOpt isSepC)) (digitsExact 4)

/-- Backtracking match of the full phone pattern at the current position;
the first success in preference order is the one Python's engine reports. -/
def phoneMatchAt (t : List Char) : Option (List Char) :=
  (seqP (seqP (pieceCountry t) pieceArea) pieceCore).head?.map Prod.fst

/-- Model of `re.search` for the primary phone pattern: leftmost matching position. -/
def phoneSearch : List Char → Option (List Char)
  | [] => none
  | c :: rest =>
    match phoneMatchAt (c :: rest) with
    | some m => some m
    | none => phoneSearch rest

/-- Case-insensitive literal match (the pattern is given lower-cased). -/
def matchesHereCI : List Char → List Char → Option (List Char)
  | [], t => some t
  | _ :: _, [] => none
  | p :: ps, c :: ts => if lowerC c = p then matchesHereCI ps ts else none

/-- The fallback pattern `Mobile[:\s]*(\d{10})` (ignore-case) at the
current position; returns the captured ten digits. -/
def mobileAt (t : List Char) : Option (List Char) :=
  match matchesHereCI "mobile".data t with
  | some r =>
    match takeDigits 10 (r.dropWhile (fun c => c = ':' || isWs c)) with
    | some (ds, _) => some ds
    | none => none
  | none => none

/-- Model of `re.search` for the fallback pattern. -/
def mobileSearch : List Char → Option (List Char)
  | [] => none
  | c :: rest =>
    match mobileAt (c :: rest) with
    | some m => some m
    | none => mobileSearch rest

/-- Cleaning step `re.sub(r"[^\d+]", "", raw)`: keep digits and plus signs. -/
def cleanPhone (raw : List Char) : List Char :=
  raw.filter (fun c => isDigitC c || c = '+')

/-- Model of `extract_phone_number` (app.py lines 230 through 245). -/
def extract_phone_number (text : List Char) : List Char :=
  match phoneSearch text with
  | some raw => cleanPhone raw
  | none =>
    match mobileSearch text with
    | some ds => ds
    | none => []

/-! ## Lemmas for C8: structure of phone matches -/

theorem takeDigits_digits : ∀ {n : Nat} {t ds r : List Char},
    takeDigits n t = some (ds, r) → ∀ c ∈ ds, isDigitC c = true := by
  intro n
  induction n with
  | zero =>
    intro t ds r h c hc
    simp [takeDigits] at h
    rw [h.1] at hc
    simp at hc
  | succ n ih =>
    intro t ds r h c hc
    cases t with
    | nil => simp [takeDigits] at h
    | cons d rest =>
      rw [takeDigits] at h
      by_cases hd : isDigitC d
      · rw [if_pos hd] at h
        cases hrec : takeDigits n rest with
        | some pr =>
          obtain ⟨ds2, r2⟩ := pr
          rw [hrec] at h
          have h2 : (d :: ds2, r2) = (ds, r) := by injection h
          injection h2 with h3 h4
          rw [← h3] at hc
          rcases List.mem_cons.mp hc with rfl | hc2
          · exact hd
          · exact ih hrec c hc2
        | none =>
          rw [hrec] at h
          exact absurd h (by simp)
      · rw [if_neg hd] at h
        exact absurd h (by simp)

theorem classOpt_shape {p : Char → Bool} {t c1 r1 : List Char}
    (h : (c1, r1) ∈ classOpt p t) : c1 = [] ∨ ∃ d, c1 = [d] ∧ p d = true := by
  cases t with
  | nil =>
    rcases List.mem_singleton.mp h with h2
    injection h2 with h3 h4
    exact Or.inl h3
  | cons d rest =>
    rw [classOpt] at h
    by_cases hd : p d
    · rw [if_pos hd] at h
      rcases List.mem_cons.mp h with h2 | h2
      · injection h2 with h3 h4
        exact Or.inr ⟨d, h3, hd⟩
      · rcases List.mem_singleton.mp h2 with h2
        injection h2 with h3 h4
        exact Or.inl h3
    · rw [if_neg hd] at h
      rcases List.mem_singleton.mp h with h2
      injection h2 with h3 h4
      exact Or.inl h3

theorem seqP_mem {xs : List (List Char × List Char)}
    {f : List Char → List (List Char × List Char)} {pr : List Char × List Char}
    (h : pr ∈ seqP xs f) :
    ∃ c1 r1 c2 r2, (c1, r1) ∈ xs ∧ (c2, r2) ∈ f r1 ∧ pr.1 = c1 ++ c2 ∧ pr.2 = r2 := by
  unfold seqP at h
  obtain ⟨a, ha, hb⟩ := List.mem_flatMap.mp h
  obtain ⟨b, hb2, hb3⟩ := List.mem_map.mp hb
  refine ⟨a.1, a.2, b.1, b.2, ?_, ?_, ?_, ?_⟩
  · rw [Prod.mk.eta]; exact ha
  · rw [Prod.mk.eta]; exact hb2
  · rw [← hb3]
  · rw [← hb3]

theorem digits13_digits {t c1 r1 : List Char} (h : (c1, r1) ∈ digits13 t) :
    ∀ c ∈ c1, isDigitC c = true := by
  obtain ⟨n, _, hn⟩ := List.mem_filterMap.mp h
  exact takeDigits_digits hn

theorem digitsExact_digits {n : Nat} {t c1 r1 : List Char}
    (h : (c1, r1) ∈ digitsExact n t) : ∀ c ∈ c1, isDigitC c = true := by
  cases hr : takeDigits n t with
  | some pr2 =>
    obtain ⟨ds, r⟩ := pr2
    simp only [digitsExact, hr] at h
    rcases List.mem_singleton.mp h with h2
    injection h2 with h3 h4
    rw [h3]
    exact takeDigits_digits hr
  | none =>
    simp only [digitsExact, hr] at h
    exact absurd h (by simp)

theorem not_plus_of_digit {c : Char} (h : isDigitC c = true) : c ≠ '+' := by
  intro hc
  rw [hc] at h
  exact absurd h (by decide)

theorem not_plus_of_sep {c : Char} (h : isSepC c = true) : c ≠ '+' := by
  intro hc
  rw [hc] at h
  exact absurd h (by decide)

theorem pieceCountry_tail {t : List Char} :
    ∀ pr ∈ pieceCountry t, '+' ∉ pr.1.tail := by
  intro pr hpr
  unfold pieceCountry at hpr
  rcases List.mem_append.mp hpr with hL | hR
  · obtain ⟨c1, r1, c2, r2, ha, hb, hpr1, _⟩ := seqP_mem hL
    obtain ⟨c3, r3, c4, r4, ha2, hb2, hc1, _⟩ := seqP_mem ha
    have hdig : ∀ c ∈ c4, isDigitC c = true := digits13_digits hb2
    have hplus := classOpt_shape ha2
    have hsep := classOpt_shape hb
    have hnc4 : '+' ∉ c4 := fun hc => not_plus_of_digit (hdig _ hc) rfl
    have hnc2 : '+' ∉ c2 := by
      rcases hsep with h0 | ⟨d, hd, hsd⟩
      · rw [h0]; simp
      · rw [hd]
        intro hc
        rcases List.mem_singleton.mp hc with rfl
        exact not_plus_of_sep hsd rfl
    have hc1b : c1 = c3 ++ c4 := hc1
    rw [hpr1, hc1b]
    rcases hplus with h0 | ⟨d, hd, _⟩
    · rw [h0, List.nil_append]
      intro hc
      have := (List.tail_sublist (c4 ++ c2)).subset hc
      rcases List.mem_append.mp this with h3 | h3
      · exact hnc4 h3
      · exact hnc2 h3
    · rw [hd, List.singleton_append, List.cons_append]
      intro hc
      rw [List.tail_cons] at hc
      rcases List.mem_append.mp hc with h3 | h3
      · exact hnc4 h3
      · exact hnc2 h3
  · rcases List.mem_singleton.mp hR with rfl
    simp

theorem pieceArea_noPlus {t : List Char} :
    ∀ pr ∈ pieceArea t, '+' ∉ pr.1 := by
  intro pr hpr
  unfold pieceArea at hpr
  rcases List.mem_append.mp hpr with hL | hR
  · obtain ⟨c1, r1, c2, r2, ha, hb, hpr1, _⟩ := seqP_mem hL
    obtain ⟨c3, r3, c4, r4, ha2, hb2, hc1, _⟩ := seqP_mem ha
    obtain ⟨c5, r5, c6, r6, ha3, hb3, hc3, _⟩ := seqP_mem ha2
    have hc1b : c1 = c3 ++ c4 := hc1
    have hc3b : c3 = c5 ++ c6 := hc3
    rw [hpr1, hc1b, hc3b]
    intro hc
    rcases List.mem_append.mp hc with h4 | h4
    · rcases List.mem_append.mp h4 with h5 | h5
      · rcases List.mem_append.mp h5 with h6 | h6
        · rcases classOpt_shape ha3 with h0 | ⟨d, hd, hpd⟩
          · rw [h0] at h6; simp at h6
          · rw [hd] at h6
            rcases List.mem_singleton.mp h6 with rfl
            exact absurd hpd (by decide)
        · exact not_plus_of_digit (digitsExact_digits hb3 _ h6) rfl
      · rcases classOpt_shape hb2 with h0 | ⟨d, hd, hpd⟩
        · rw [h0] at h5; simp at h5
        · rw [hd] at h5
          rcases List.mem_singleton.mp h5 with rfl
          exact absurd hpd (by decide)
    · rcases classOpt_shape hb with h0 | ⟨d, hd, hpd⟩
      · rw [h0] at h4; simp at h4
      · rw [hd] at h4
        rcases List.mem_singleton.mp h4 with rfl
        exact not_plus_of_sep hpd rfl
  · rcases List.mem_singleton.mp hR with rfl
    simp

theorem pieceCore_noPlus {t : List Char} :
    ∀ pr ∈ pieceCore t, '+' ∉ pr.1 := by
  intro pr hpr
  unfold pieceCore at hpr
  obtain ⟨c1, r1, c2, r2, ha, hb, hpr1, _⟩ := seqP_mem hpr
  obtain ⟨c3, r3, c4, r4, ha2, hb2, hc1, _⟩ := seqP_mem ha
  have hc1b : c1 = c3 ++ c4 := hc1
  rw [hpr1, hc1b]
  intro hc
  rcases List.mem_append.mp hc with h4 | h4
  · rcases List.mem_append.mp h4 with h5 | h5
    · exact not_plus_of_digit (digitsExact_digits ha2 _ h5) rfl
    · rcases classOpt_shape hb2 with h0 | ⟨d, hd, hpd⟩
      · rw [h0] at h5; simp at h5
      · rw [hd] at h5
        rcases List.mem_singleton.mp h5 with rfl
        exact not_plus_of_sep hpd rfl
  · exact not_plus_of_digit (digitsExact_digits hb _ h4) rfl

theorem phoneMatchAt_tail {t m : List Char} (h : phoneMatchAt t = some m) :
    '+' ∉ m.tail := by
  unfold phoneMatchAt at h
  obtain ⟨pr, hhead, hfst⟩ := Option.map_eq_some'.mp h
  have hmem : pr ∈ seqP (seqP (pieceCountry t) pieceArea) pieceCore :=
    List.mem_of_mem_head? (by rw [hhead]; rfl)
  obtain ⟨c1, r1, c2, r2, ha, hb, hpr1, _⟩ := seqP_mem hmem
  obtain ⟨c3, r3, c4, r4, ha2, hb2, hc1, _⟩ := seqP_mem ha
  have hc1b : c1 = c3 ++ c4 := hc1
  have hn3 : '+' ∉ c3.tail := pieceCountry_tail _ ha2
  have hn4 : '+' ∉ c4 := pieceArea_noPlus _ hb2
  have hn2 : '+' ∉ c2 := pieceCore_noPlus _ hb
  rw [← hfst, hpr1, hc1b]
  cases c3 with
  | nil =>
    rw [List.nil_append]
    intro hc
    rcases List.mem_append.mp ((List.tail_sublist (c4 ++ c2)).subset hc) with h3 | h3
    · exact hn4 h3
    · exact hn2 h3
  | cons x xs =>
    rw [List.cons_append, List.cons_append]
    intro hc
    rw [List.tail_cons] at hc
    rcases List.mem_append.mp hc with h3 | h3
    · rcases List.mem_append.mp h3 with h4 | h4
      · exact hn3 h4
      · exact hn4 h4
    · exact hn2 h3

theorem phoneSearch_tail : ∀ {t m : List Char}, phoneSearch t = some m → '+' ∉ m.tail := by
  intro t
  induction t with
  | nil => intro m h; simp [phoneSearch] at h
  | cons c rest ih =>
    intro m h
    cases hm : phoneMatchAt (c :: rest) with
    | some m2 =>
      simp only [phoneSearch, hm] at h
      injection h with h2
      rw [← h2]
      exact phoneMatchAt_tail hm
    | none =>
      simp only [phoneSearch, hm] at h
      exact ih h

theorem mobileAt_digits {t ds : List Char} (h : mobileAt t = some ds) :
    ∀ c ∈ ds, isDigitC c = true := by
  cases hm : matchesHereCI "mobile".data t with
  | some r =>
    cases htd : takeDigits 10 (r.dropWhile (fun c => c = ':' || isWs c)) with
    | some pr =>
      obtain ⟨ds2, rest⟩ := pr
      simp only [mobileAt, hm, htd] at h
      injection h with h2
      rw [← h2]
      exact takeDigits_digits htd
    | none =>
      simp only [mobileAt, hm, htd] at h
      exact absurd h (by simp)
  | none =>
    simp only [mobileAt, hm] at h
    exact absurd h (by simp)

theorem mobileSearch_digits : ∀ {t ds : List Char}, mobileSearch t = some ds →
    ∀ c ∈ ds, isDigitC c = true := by
  intro t
  induction t with
  | nil => intro ds h; simp [mobileSearch] at h
  | cons c rest ih =>
    intro ds h
    cases hm : mobileAt (c :: rest) with
    | some ds2 =>
      simp only [mobileSearch, hm] at h
      injection h with h2
      rw [← h2]
      exact mobileAt_digits hm
    | none =>
      simp only [mobileSearch, hm] at h
      exact ih h

theorem cleanPhone_chars {raw : List Char} :
    ∀ c ∈ cleanPhone raw, isDigitC c = true ∨ c = '+' := by
  intro c hc
  have h2 := (List.mem_filter.mp hc).2
  rcases Bool.or_eq_true _ _ ▸ h2 with h3 | h3
  · exact Or.inl h3
  · exact Or.inr (by simpa using h3)

theorem cleanPhone_tail_digits {raw : List Char} (h : '+' ∉ raw.tail) :
    ∀ c ∈ (cleanPhone raw).tail, isDigitC c = true := by
  cases raw with
  | nil => intro c hc; simp [cleanPhone] at hc
  | cons r0 rtail =>
    intro c hc
    have htail : c ∈ cleanPhone rtail := by
      unfold cleanPhone at hc ⊢
      rw [List.filter_cons] at hc
      by_cases hk : (isDigitC r0 || r0 = '+') = true
      · rw [if_pos hk] at hc
        rw [List.tail_cons] at hc
        exact hc
      · rw [if_neg hk] at hc
        exact (List.tail_sublist _).subset hc
    obtain ⟨hmem, hp⟩ := List.mem_filter.mp htail
    rcases Bool.or_eq_true _ _ ▸ hp with h3 | h3
    · exact h3
    · exfalso
      have hcp : c = '+' := by simpa using h3
      rw [hcp] at hmem
      exact h (by rw [List.tail_cons]; exact hmem)

/-- C8: on the spec's test input the extracted phone number is exactly the
ten digits, and in general every non-empty result of `extract_phone_number`
is the cleaned form of a pattern match: digits with an optional leading "+"
and every other character stripped (a "+" can only appear at position 0). -/
theorem C8_phone_digits_plus :
    extract_phone_number "Mobile: 9876543210".data = "9876543210".data ∧
    (∀ t : List Char, extract_phone_number t ≠ [] →
      ((∃ raw, phoneSearch t = some raw ∧ extract_phone_number t = cleanPhone raw) ∨
        (phoneSearch t = none ∧ mobileSearch t = some (extract_phone_number t))) ∧
      (∀ c ∈ extract_phone_number t, isDigitC c = true ∨ c = '+') ∧
      (∀ c ∈ (extract_phone_number t).tail, isDigitC c = true)) := by
  constructor
  · decide
  · intro t hne
    cases hp : phoneSearch t with
    | some raw =>
      have hres : extract_phone_number t = cleanPhone raw := by
        unfold extract_phone_number
        rw [hp]
      refine ⟨Or.inl ⟨raw, rfl, hres⟩, ?_, ?_⟩
      · rw [hres]; exact cleanPhone_chars
      · rw [hres]; exact cleanPhone_tail_digits (phoneSearch_tail hp)
    | none =>
      cases hm : mobileSearch t with
      | some ds =>
        have hres : extract_phone_number t = ds := by
          unfold extract_phone_number
          rw [hp, hm]
        have hdig : ∀ c ∈ ds, isDigitC c = true := mobileSearch_digits hm
        refine ⟨Or.inr ⟨rfl, by rw [hres]⟩, ?_, ?_⟩
        · rw [hres]; exact fun c hc => Or.inl (hdig c hc)
        · rw [hres]
          exact fun c hc => hdig c ((List.tail_sublist ds).subset hc)
      | none =>
        exfalso
        apply hne
        unfold extract_phone_number
        rw [hp, hm]

/-- Witness for C8: the non-emptiness hypothesis discharged on a concrete
phone-bearing input. -/
theorem C8_phone_digits_plus_witness :
    ((∃ raw, phoneSearch "+1-202-555-0173".data = some raw ∧
        extract_phone_number "+1-202-555-0173".data = cleanPhone raw) ∨
      (phoneSearch "+1-202-555-0173".data = none ∧
        mobileSearch "+1-202-555-0173".data =
          some (extract_phone_number "+1-202-555-0173".data))) ∧
    (∀ c ∈ extract_phone_number "+1-202-555-0173".data,
      isDigitC c = true ∨ c = '+') ∧
    (∀ c ∈ (extract_phone_number "+1-202-555-0173".data).tail,
      isDigitC c = true) :=
  C8_phone_digits_plus.2 "+1-202-555-0173".data (by decide)

/-- C10: the primary phone pattern accepts any seven-plus-digit structure
with single separators, so on the phone-free year range "2020-2021" the
extractor returns the non-empty digit string "20202021". -/
theorem C10_phone_matches_year_range :
    phoneSearch "2020-2021".data = some "2020-2021".data ∧
    extract_phone_number "2020-2021".data = "20202021".data :=
  ⟨by decide, by decide⟩

/-! ## Name fallback (app.py lines 255 through 268) -/

/-- ASCII letter. -/
def isAlphaC (c : Char) : Bool :=
  (65 ≤ c.toNat && c.toNat ≤ 90) || (97 ≤ c.toNat && c.toNat ≤ 122)

/-- ASCII upper-case letter, as Python `str.isupper` on a letter. -/
def isUpperC (c : Char) : Bool := 65 ≤ c.toNat && c.toNat ≤ 90

/-- Maximal alphabetic runs of a line: `re.findall(r"[A-Za-z]+", line)`. -/
def lineWordsAux (l : List Char) : List Char × List (List Char) :=
  l.foldr
    (fun c acc =>
      if isAlphaC c then (c :: acc.1, acc.2)
      else ([], if acc.1 = [] then acc.2 else acc.1 :: acc.2))
    ([], [])

/-- The list of alphabetic words of a line, left to right. -/
def lineWords (l : List Char) : List (List Char) :=
  let a := lineWordsAux l
  if a.1 = [] then a.2 else a.1 :: a.2

/-- The label pattern `^\s*(?:name)\s*[:\-]\s*(.+)$` (ignore-case) applied to
the stripped line; returns `m.group(1).strip()`. -/
def parseNameLabel (line : List Char) : Option (List Char) :=
  let s := stripL line
  match matchesHereCI "name".data s with
  | some rest =>
    match rest.dropWhile isWs with
    | c :: rs =>
      if c = ':' ∨ c = '-' then
        let r3 := rs.dropWhile isWs
        if r3 = [] then none else some (stripL r3)
      else none
    | [] => none
  | none => none

/-- The capitalized-pair heuristic of the second loop, on the word list:
the first two alphabetic words must both start upper-case and have length 3
through 20. -/
def nameHeuristicWords : List (List Char) → Option (List Char)
  | w0 :: w1 :: _ =>
    if (w0.head?.elim false isUpperC) && (w1.head?.elim false isUpperC) then
      if 3 ≤ w0.length ∧ w0.length ≤ 20 ∧ 3 ≤ w1.length ∧ w1.length ≤ 20 then
        some (w0 ++ ' ' :: w1)
      else none
    else none
  | _ => none

/-- The heuristic applied to a line. -/
def nameHeuristic (line : List Char) : Option (List Char) :=
  nameHeuristicWords (lineWords line)

/-- Model of `extract_name_fallback` (app.py lines 255 through 268): the
label loop over the first 10 lines, then the heuristic loop over the same
lines.  Python `splitlines` is modeled by splitting on the newline
character. -/
def extract_name_fallback (text : List Char) : List Char :=
  match ((text.splitOn '\n').take 10).findSome? parseNameLabel with
  | some v => v
  | none => ((((text.splitOn '\n').take 10)).findSome? nameHeuristic).getD []

/-- C9 (amended): `extract_name_fallback` depends only on the first 10
lines; it returns the value of the first "Name: X" / "Name - X" label line
if any; otherwise it applies, line by line, a heuristic that examines only
the first two alphabetic words of the line: it returns them joined by a
space iff both start with an upper-case letter and both have length 3
through 20, and skips the line otherwise — even when later words of the line
would qualify. -/
theorem C9_name_fallback_first_two_words :
    (∀ t1 t2 : List Char, (t1.splitOn '\n').take 10 = (t2.splitOn '\n').take 10 →
      extract_name_fallback t1 = extract_name_fallback t2) ∧
    (∀ (t : List Char) (v : List Char),
      ((t.splitOn '\n').take 10).findSome? parseNameLabel = some v →
      extract_name_fallback t = v) ∧
    (∀ t : List Char,
      ((t.splitOn '\n').take 10).findSome? parseNameLabel = none →
      extract_name_fallback t =
        (((t.splitOn '\n').take 10).findSome? nameHeuristic).getD []) ∧
    (∀ (line w0 w1 : List Char) (rest : List (List Char)),
      lineWords line = w0 :: w1 :: rest →
      ((w0.head?.elim false isUpperC) && (w1.head?.elim false isUpperC)) = true →
      (3 ≤ w0.length ∧ w0.length ≤ 20 ∧ 3 ≤ w1.length ∧ w1.length ≤ 20) →
      nameHeuristic line = some (w0 ++ ' ' :: w1)) ∧
    (∀ (line w0 w1 : List Char) (rest : List (List Char)),
      lineWords line = w0 :: w1 :: rest →
      (((w0.head?.elim false isUpperC) && (w1.head?.elim false isUpperC)) = false ∨
        ¬ (3 ≤ w0.length ∧ w0.length ≤ 20 ∧ 3 ≤ w1.length ∧ w1.length ≤ 20)) →
      nameHeuristic line = none) := by
  refine ⟨?_, ?_, ?_, ?_, ?_⟩
  · intro t1 t2 h
    unfold extract_name_fallback
    rw [h]
  · intro t v h
    unfold extract_name_fallback
    rw [h]
  · intro t h
    unfold extract_name_fallback
    rw [h]
  · intro line w0 w1 rest hw hup hlen
    unfold nameHeuristic
    rw [hw, nameHeuristicWords, if_pos hup, if_pos hlen]
  · intro line w0 w1 rest hw hcond
    unfold nameHeuristic
    rw [hw, nameHeuristicWords]
    rcases hcond with h1 | h1
    · rw [h1]
      simp
    · by_cases h2 : ((w0.head?.elim false isUpperC) && (w1.head?.elim false isUpperC)) = true
      · rw [if_pos h2, if_neg h1]
      · rw [if_neg h2]

/-- Witness for C9: a label line is taken, and the heuristic fires on a
plain capitalized pair. -/
theorem C9_name_fallback_witness :
    extract_name_fallback "Name: Jane Doe".data = "Jane Doe".data ∧
    nameHeuristic "John Smith resume".data = some "John Smith".data :=
  ⟨C9_name_fallback_first_two_words.2.1 "Name: Jane Doe".data "Jane Doe".data (by decide),
    C9_name_fallback_first_two_words.2.2.2.1 "John Smith resume".data
      "John".data "Smith".data ["resume".data] (by decide) (by decide) (by decide)⟩

/-- C9 counterexample: on the single line "Dr Jane Doe" the line contains
two alphabetic words ("Jane", "Doe") that start upper-case with length 3
through 20, so the claim requires "Jane Doe"; the code checks only the first
two words ("Dr", "Jane"), the length test on "Dr" fails, the line is
skipped, and the empty string is returned. -/
theorem C9_name_fallback_counterexample :
    lineWords "Dr Jane Doe".data = ["Dr".data, "Jane".data, "Doe".data] ∧
    ("Jane".data.head?.elim false isUpperC = true ∧ 3 ≤ "Jane".data.length ∧
      "Jane".data.length ≤ 20) ∧
    ("Doe".data.head?.elim false isUpperC = true ∧ 3 ≤ "Doe".data.length ∧
      "Doe".data.length ≤ 20) ∧
    extract_name_fallback "Dr Jane Doe".data = [] ∧
    extract_name_fallback "Dr Jane Doe".data ≠ "Jane Doe".data :=
  ⟨by decide, by decide, by decide, by decide, by decide⟩

/-! ## Section segmenter (app.py lines 335 through 400)

The source compiles `HEADING_PATTERN`, a multiline regex matching
`^\s*(synonym)\s*:?\s*$` for any heading synonym.  Because the synonyms
contain no newline and everything else the pattern may consume is
whitespace or a single colon, the pattern has a match in the text exactly
when some single line consists of optional whitespace, a synonym, optional
whitespace, an optional colon and optional whitespace; each match covers
exactly the non-whitespace of one such line, and the slice between two
successive matches differs from the lines strictly between the two heading
lines only by surrounding whitespace, which the subsequent `.strip()`
removes.  The splitter is therefore embedded line-wise. -/

/-- The `CANONICAL_BY_SYNONYM` table: lower-cased synonym to canonical section key,
in source insertion order. -/
def CANONICAL_BY_SYNONYM : List (List Char × List Char) :=
  [("experience".data, "experience".data),
   ("work experience".data, "experience".data),
   ("professional experience".data, "experience".data),
   ("employment history".data, "experience".data),
   ("career history".data, "experience".data),
   ("work history".data, "experience".data),
   ("employment".data, "experience".data),
   ("work profile".data, "experience".data),
   ("education".data, "education".data),
   ("educational background".data, "education".data),
   ("academic background".data, "education".data),
   ("qualifications".data, "education".data),
   ("academics".data, "education".data),
   ("projects".data, "projects".data),
   ("project experience".data, "projects".data),
   ("personal projects".data, "projects".data),
   ("academic projects".data, "projects".data),
   ("skills".data, "skills".data),
   ("technical skills".data, "skills".data),
   ("skills & tools".data, "skills".data),
   ("skills and tools".data, "skills".data),
   ("technologies".data, "skills".data),
   ("tech stack".data, "skills".data),
   ("core competencies".data, "skills".data),
   ("key skills".data, "skills".data),
   ("certifications".data, "certifications".data),
   ("certificates".data, "certifications".data),
   ("licenses".data, "certifications".data),
   ("licences".data, "certifications".data),
   ("summary".data, "summary".data),
   ("professional summary".data, "summary".data),
   ("profile".data, "summary".data),
   ("about me".data, "summary".data),
   ("objective".data, "summary".data)]

/-- Does this single line match `^\s*(synonym)\s*:?\s*$`?  If so, return the
canonical key (`CANONICAL_BY_SYNONYM.get(raw_head)`; every matched head is a
known synonym, so the fallback to the raw head never fires). -/
def lineHeadingKey (line : List Char) : Option (List Char) :=
  let t := stripL line
  let cand :=
    match t.getLast? with
    | some c => if c = ':' then List.rdropWhile isWs t.dropLast else t
    | none => t
  alookup (lowerL cand) CANONICAL_BY_SYNONYM

/-- Collect the lines up to (excluding) the next heading line. -/
def collectContent : List (List Char) → List (List Char) × List (List Char)
  | [] => ([], [])
  | l :: ls =>
    match lineHeadingKey l with
    | some _ => ([], l :: ls)
    | none =>
      match collectContent ls with
      | (cs, rest) => (l :: cs, rest)

/-- Replace the value stored at key `k`. -/
def updateAssoc (k v : List Char) : List (List Char × List Char) → List (List Char × List Char)
  | [] => []
  | (a, b) :: rest => if a = k then (a, v) :: rest else (a, b) :: updateAssoc k v rest

/-- Store a section: first insertion keeps document order; a duplicate
canonical key appends the new content after a blank line
(`(prev + "\n\n" + content).strip()`; both parts are already stripped). -/
def addSection (acc : List (List Char × List Char)) (k v : List Char) :
    List (List Char × List Char) :=
  match alookup k acc with
  | some prev => updateAssoc k (stripL (prev ++ '\n' :: '\n' :: v)) acc
  | none => acc ++ [(k, v)]

/-- Walk the lines: content before the first heading is dropped, each
heading gets the stripped join of the lines before the next heading, and
empty content is discarded.  `fuel` bounds the recursion (initially the
number of lines, which never runs out). -/
def sectionsGo : Nat → List (List Char × List Char) → List (List Char) →
    List (List Char × List Char)
  | 0, acc, _ => acc
  | _ + 1, acc, [] => acc
  | fuel + 1, acc, l :: ls =>
    match lineHeadingKey l with
    | some k =>
      match collectContent ls with
      | (cs, rest) =>
        let content := stripL (List.intercalate ['\n'] cs)
        if content = [] then sectionsGo fuel acc rest
        else sectionsGo fuel (addSection acc k content) rest
    | none => sectionsGo fuel acc ls

/-- Model of `split_resume_sections` (app.py lines 373 through 400). -/
def split_resume_sections (text : List Char) : List (List Char × List Char) :=
  if text = [] then []
  else
    if (text.splitOn '\n').all (fun l => (lineHeadingKey l).isNone) then
      [("summary".data, stripL text)]
    else sectionsGo (text.splitOn '\n').length [] (text.splitOn '\n')

/-- C4 (amended): for every non-empty input in which no line consists
solely of a heading synonym (with optional colon and surrounding
whitespace) — in particular when heading phrases occur only mid-sentence —
the segmenter returns exactly one section, "summary", holding the whole
text trimmed.  (On the empty string the code returns an empty section map
instead; see the counterexample.) -/
theorem C4_no_heading_single_summary (text : List Char) (hne : text ≠ [])
    (hno : ∀ l ∈ text.splitOn '\n', lineHeadingKey l = none) :
    split_resume_sections text = [("summary".data, stripL text)] := by
  unfold split_resume_sections
  rw [if_neg hne, if_pos]
  rw [List.all_eq_true]
  intro l hl
  rw [Option.isNone_iff_eq_none]
  exact hno l hl

/-- Witness for C4: a two-line text whose lines mention "skills" and
"experience" mid-sentence only. -/
theorem C4_no_heading_single_summary_witness :
    split_resume_sections "built skills in the field\nwork experience was gained".data =
      [("summary".data, stripL "built skills in the field\nwork experience was gained".data)] :=
  C4_no_heading_single_summary
    "built skills in the field\nwork experience was gained".data
    (by decide) (by decide)

/-- C4 counterexample: the empty string has no heading line, yet the code
returns an empty section map rather than a single summary section. -/
theorem C4_empty_text_counterexample :
    (∀ l ∈ ([] : List Char).splitOn '\n', lineHeadingKey l = none) ∧
    split_resume_sections [] = [] ∧
    split_resume_sections [] ≠ [("summary".data, stripL [])] :=
  ⟨by decide, by decide, by decide⟩

/-! ## Date-range detection (app.py lines 406 through 496)

Within `DATE_RANGE_REGEX` every adjacent pair of sub-patterns draws from
disjoint character classes (`[a-z]*` vs `\s+`, `\s+` vs `\d{4}`, `\s*` vs
the separators, etc.), so the greedy quantifiers never backtrack and the
alternations commit to their first matching branch; the embedding therefore
uses plain options, scanning positions left to right as `re.search` does. -/

/-- The month alternation `Jan|Feb|Mar|Apr|May|Jun|Jul|Aug|Sep|Sept|Oct|Nov|Dec`
(ignore-case), lower-cased for the case-insensitive literal matcher. -/
def MONTHS : List (List Char) :=
  ["jan".data, "feb".data, "mar".data, "apr".data, "may".data, "jun".data,
   "jul".data, "aug".data, "sep".data, "sept".data, "oct".data, "nov".data,
   "dec".data]

/-- The separator alternation `-|–|—|to|through|until` (ignore-case). -/
def DATE_SEPS : List (List Char) :=
  ["-".data, "–".data, "—".data, "to".data, "through".data, "until".data]

/-- The literal end alternatives `Present|Current|Now|Till date|Until now`
(ignore-case), in source order. -/
def DATE_END_LITS : List (List Char) :=
  ["present".data, "current".data, "now".data, "till date".data,
   "until now".data]

/-- Try a list of case-insensitive literals in order; return the consumed
original text and the rest. -/
def tryLits : List (List Char) → List Char → Option (List Char × List Char)
  | [], _ => none
  | m :: ms, t =>
    match matchesHereCI m t with
    | some rest => some (t.take m.length, rest)
    | none => tryLits ms t

/-- The form `(?:Month)[a-z]*\s+\d{4}`: month name, trailing letters, whitespace,
four digits. -/
def monthForm (t : List Char) : Option (List Char × List Char) :=
  match tryLits MONTHS t with
  | some (c1, r1) =>
    let letters := r1.takeWhile isAlphaC
    let r2 := r1.drop letters.length
    let ws := r2.takeWhile isWs
    if ws = [] then none
    else
      match takeDigits 4 (r2.drop ws.length) with
      | some (ds, r4) => some (c1 ++ letters ++ ws ++ ds, r4)
      | none => none
  | none => none

/-- The start group: `Month Year` or a bare four-digit year. -/
def dateStart (t : List Char) : Option (List Char × List Char) :=
  match monthForm t with
  | some pr => some pr
  | none => takeDigits 4 t

/-- The end group: literal, `Month Year`, or a bare year, in source order. -/
def dateEnd (t : List Char) : Option (List Char × List Char) :=
  match tryLits DATE_END_LITS t with
  | some pr => some pr
  | none =>
    match monthForm t with
    | some pr => some pr
    | none => takeDigits 4 t

/-- Attempt the full `DATE_RANGE_REGEX` at the current position; on success
return the `start` and `end` capture groups. -/
def dateRangeAt (t : List Char) : Option (List Char × List Char) :=
  match dateStart t with
  | some (s, r1) =>
    match tryLits DATE_SEPS (r1.dropWhile isWs) with
    | some (_, r3) =>
      match dateEnd (r3.dropWhile isWs) with
      | some (e, _) => some (s, e)
      | none => none
    | none => none
  | none => none

/-- Model of `DATE_RANGE_REGEX.search`: leftmost match. -/
def dateRangeSearch : List Char → Option (List Char × List Char)
  | [] => none
  | c :: rest =>
    match dateRangeAt (c :: rest) with
    | some pr => some pr
    | none => dateRangeSearch rest

/-- Model of `detect_date_range` (app.py lines 481 through 496); `ents` are
the `(text, label)` entity spans of the recognition engine for this block,
in document order. -/
def detect_date_range (text : List Char) (ents : List (List Char × List Char)) :
    List Char :=
  match dateRangeSearch text with
  | some (s, e) => s ++ ' ' :: '-' :: ' ' :: e
  | none =>
    match (ents.filter (fun en => en.2 = "DATE".data)).map Prod.fst with
    | d0 :: d1 :: _ => d0 ++ ' ' :: '-' :: ' ' :: d1
    | [d0] => d0
    | [] => []

/-- C2: date-range detection first tries the range regex and on a match
returns `start ++ " - " ++ end`; with no regex match it joins the first two
DATE-labeled entity spans with " - ", returns a single DATE span alone, and
otherwise returns the empty string. -/
theorem C2_detect_date_range_cases (text : List Char)
    (ents : List (List Char × List Char)) :
    (∀ s e, dateRangeSearch text = some (s, e) →
      detect_date_range text ents = s ++ " - ".data ++ e) ∧
    (dateRangeSearch text = none →
      ∀ d0 d1 rest, (ents.filter (fun en => en.2 = "DATE".data)).map Prod.fst =
          d0 :: d1 :: rest →
        detect_date_range text ents = d0 ++ " - ".data ++ d1) ∧
    (dateRangeSearch text = none →
      ∀ d0, (ents.filter (fun en => en.2 = "DATE".data)).map Prod.fst = [d0] →
        detect_date_range text ents = d0) ∧
    (dateRangeSearch text = none →
      (ents.filter (fun en => en.2 = "DATE".data)).map Prod.fst = [] →
      detect_date_range text ents = []) := by
  refine ⟨?_, ?_, ?_, ?_⟩
  · intro s e h
    unfold detect_date_range
    rw [h, List.append_assoc]
    rfl
  · intro h d0 d1 rest hd
    unfold detect_date_range
    rw [h, hd, List.append_assoc]
    rfl
  · intro h d0 hd
    unfold detect_date_range
    rw [h, hd]
  · intro h hd
    unfold detect_date_range
    rw [h, hd]

/-- Witness for C2: the regex path on the spec's literal example, and the
entity fallback paths on a dateless text. -/
theorem C2_detect_date_range_witness :
    detect_date_range "Software Engineer at Acme, Jan 2020 - Present".data [] =
      "Jan 2020 - Present".data ∧
    detect_date_range "worked there".data
      [("2019".data, "DATE".data), ("2021".data, "DATE".data)] =
      "2019 - 2021".data ∧
    detect_date_range "worked there".data [("2019".data, "DATE".data)] =
      "2019".data ∧
    detect_date_range "worked there".data [("Acme".data, "ORG".data)] = [] :=
  ⟨(C2_detect_date_range_cases _ []).1 "Jan 2020".data "Present".data (by decide),
    (C2_detect_date_range_cases _ _).2.1 (by decide) "2019".data "2021".data []
      (by decide),
    (C2_detect_date_range_cases _ _).2.2.1 (by decide) "2019".data (by decide),
    (C2_detect_date_range_cases _ _).2.2.2 (by decide) (by decide)⟩

/-! ## Experience block matcher (app.py lines 499 through 598)

The spaCy pipeline (`nlp(block)`, its entity spans and the token-pattern
`Matcher` of `build_experience_matcher`) is the external recognition engine;
a `BlockOracle` supplies, per block, the title/organization candidates the
matcher loop of lines 539 through 552 produced and the entity spans of the
block's document.  Everything else (blocking, cleaning, dictionary
fallbacks, date detection, admission and deduplication) is embedded from
the source. -/

/-- Leading bullet glyphs stripped by `clean_line`. -/
def bulletChar (c : Char) : Bool :=
  c = '-' || c = '•' || c = '‣' || c = '◦' || c = '⁃' || c = '∙' || c = '*'

/-- The `re.sub` of the leading-bullet pattern: one or more bullet glyphs, then
whitespace, removed only at the start of the line. -/
def dropBullets (l : List Char) : List Char :=
  match l with
  | c :: _ => if bulletChar c then (l.dropWhile bulletChar).dropWhile isWs else l
  | [] => []

/-- Collapse `re.sub(r"\s+", " ", line)`: every whitespace run becomes one space. -/
def collapseWs : List Char → List Char
  | [] => []
  | [c] => if isWs c then [' '] else [c]
  | c :: d :: rest =>
    if isWs c && isWs d then collapseWs (d :: rest)
    else (if isWs c then ' ' else c) :: collapseWs (d :: rest)

/-- Model of `clean_line` (app.py lines 415 through 418). -/
def clean_line (l : List Char) : List Char :=
  stripL (collapseWs (dropBullets l))

/-- Join a block's buffered lines with single spaces after cleaning
(`" ".join(clean_line(x) for x in buf if x.strip())`; the buffer holds
stripped non-empty lines, so the filter passes every element). -/
def flushBuf (buf : List (List Char)) : List Char :=
  List.intercalate [' '] (buf.map clean_line)

/-- The blocking loop of `extract_experience`: blank lines end a block. -/
def mkBlocksGo (buf : List (List Char)) : List (List Char) → List (List Char)
  | [] => if buf = [] then [] else [flushBuf buf]
  | raw :: rest =>
    let line := stripL raw
    if line = [] then
      if buf = [] then mkBlocksGo [] rest
      else flushBuf buf :: mkBlocksGo [] rest
    else mkBlocksGo (buf ++ [line]) rest

/-- A structured experience entry (the snake_case dict of the source). -/
structure ExperienceEntry where
  job_title : List Char
  company_name : List Char
  date_range : List Char
deriving DecidableEq

/-- What the spaCy matcher loop and entity tagging yield per block. -/
structure BlockOracle where
  matcherTitle : List Char → Option (List Char)
  matcherOrg : List Char → Option (List Char)
  ents : List Char → List (List Char × List Char)

/-- Python truthiness of an optional string. -/
def optTruthy : Option (List Char) → Bool
  | none => false
  | some s => !s.isEmpty

/-- Model of `pick_longest`: the first span of maximal text length, stripped. -/
def pick_longest : List (List Char) → Option (List Char)
  | [] => none
  | s :: rest =>
    some (stripL (rest.foldl (fun best x => if x.length > best.length then x else best) s))

/-- Python `sorted(xs, key=len, reverse=True)[0]`: first element of maximal length
(Python's sort is stable), without stripping. -/
def firstLongest : List (List Char) → Option (List Char)
  | [] => none
  | s :: rest =>
    some (rest.foldl (fun best x => if x.length > best.length then x else best) s)

/-- The per-block body of `extract_experience` (app.py lines 533 through
585): matcher candidates, entity fallback, dictionary fallback, date range,
and the admission test. -/
def processBlock (o : BlockOracle) (b : List Char) : Option ExperienceEntry :=
  let ents := o.ents b
  let t1 := o.matcherTitle b
  let g1 := o.matcherOrg b
  let t2 := if optTruthy t1 then t1 else
    pick_longest ((ents.filter (fun en => en.2 = "JOB_TITLE".data)).map Prod.fst)
  let g2 := if optTruthy g1 then g1 else
    pick_longest ((ents.filter
      (fun en => en.2 = "ORG".data ∨ en.2 = "ORGANIZATION".data)).map Prod.fst)
  let t3 := if optTruthy t2 then t2 else
    (if extract_job_titles_dict b = [] then t2
     else firstLongest (extract_job_titles_dict b))
  let g3 := if optTruthy g2 then g2 else
    (if extract_orgs_dict b = [] then g2
     else firstLongest (extract_orgs_dict b))
  let date := detect_date_range b ents
  if optTruthy t3 || optTruthy g3 || !date.isEmpty then
    some ⟨t3.getD [], g3.getD [], date⟩
  else none

/-- Python falsiness of a whole entry (`not any(item.values())`). -/
def entryAllEmpty (e : ExperienceEntry) : Bool :=
  e.job_title.isEmpty && e.company_name.isEmpty && e.date_range.isEmpty

/-- Case-insensitive field-by-field equality of entries (line 593). -/
def entryEqCI (a b : ExperienceEntry) : Bool :=
  decide (lowerL a.job_title = lowerL b.job_title) &&
    decide (lowerL a.company_name = lowerL b.company_name) &&
    decide (lowerL a.date_range = lowerL b.date_range)

/-- The guard `prev and all(...)` of line 593: `None` is falsy. -/
def prevMatches : Option ExperienceEntry → ExperienceEntry → Bool
  | none, _ => false
  | some p, item => entryEqCI p item

/-- The deduplication loop of lines 587 through 596: `prev` is the last
retained entry. -/
def dedupGo (prev : Option ExperienceEntry) :
    List ExperienceEntry → List ExperienceEntry
  | [] => []
  | item :: rest =>
    if entryAllEmpty item then dedupGo prev rest
    else if prevMatches prev item then dedupGo prev rest
    else item :: dedupGo (some item) rest

/-- The deduplication pass applied to the raw per-block results. -/
def dedup_experience (results : List ExperienceEntry) : List ExperienceEntry :=
  dedupGo none results

/-- Model of `extract_experience` (app.py lines 499 through 598). -/
def extract_experience (o : BlockOracle) (text : List Char) : List ExperienceEntry :=
  dedup_experience
    ((mkBlocksGo [] (text.splitOn '\n')).filterMap
      (fun b => if b = [] ∨ b.length < 5 then none else processBlock o b))

theorem dedupGo_nonempty :
    ∀ (l : List ExperienceEntry) (prev : Option ExperienceEntry),
    ∀ e ∈ dedupGo prev l, entryAllEmpty e = false := by
  intro l
  induction l with
  | nil => intro prev e he; simp [dedupGo] at he
  | cons item rest ih =>
    intro prev e he
    by_cases hA : entryAllEmpty item = true
    · rw [dedupGo, if_pos hA] at he
      exact ih prev e he
    · rw [dedupGo, if_neg hA] at he
      by_cases hE : prevMatches prev item = true
      · rw [if_pos hE] at he
        exact ih prev e he
      · rw [if_neg hE] at he
        rcases List.mem_cons.mp he with rfl | he2
        · simpa using hA
        · exact ih (some item) e he2

theorem dedupGo_chain :
    ∀ (l : List ExperienceEntry) (prev : Option ExperienceEntry),
    List.Chain' (fun a b => entryEqCI a b = false) (dedupGo prev l) ∧
    (∀ p h2, prev = some p → (dedupGo prev l).head? = some h2 →
      entryEqCI p h2 = false) := by
  intro l
  induction l with
  | nil =>
    intro prev
    exact ⟨List.chain'_nil, fun p h2 _ hh => by simp [dedupGo] at hh⟩
  | cons item rest ih =>
    intro prev
    by_cases hA : entryAllEmpty item = true
    · rw [dedupGo, if_pos hA]
      exact ih prev
    · rw [dedupGo, if_neg hA]
      by_cases hE : prevMatches prev item = true
      · rw [if_pos hE]
        exact ih prev
      · rw [if_neg hE]
        constructor
        · rw [List.chain'_cons']
          refine ⟨?_, (ih (some item)).1⟩
          intro y hy
          exact (ih (some item)).2 item y rfl (Option.mem_def.mp hy)
        · intro p h2 hprev hh
          rw [List.head?_cons] at hh
          injection hh with hh2
          rw [← hh2]
          rw [hprev] at hE
          simpa [prevMatches] using hE

theorem entryAllEmpty_false {e : ExperienceEntry} (h : entryAllEmpty e = false) :
    ¬ (e.job_title = [] ∧ e.company_name = [] ∧ e.date_range = []) := by
  intro ⟨h1, h2, h3⟩
  have : entryAllEmpty e = true := by
    unfold entryAllEmpty
    rw [h1, h2, h3]
    rfl
  rw [h] at this
  exact absurd this (by decide)

theorem entryEqCI_false {a b : ExperienceEntry} (h : entryEqCI a b = false) :
    ¬ (lowerL a.job_title = lowerL b.job_title ∧
      lowerL a.company_name = lowerL b.company_name ∧
      lowerL a.date_range = lowerL b.date_range) := by
  intro ⟨h1, h2, h3⟩
  have : entryEqCI a b = true := by
    unfold entryEqCI
    rw [h1, h2, h3]
    simp
  rw [h] at this
  exact absurd this (by decide)

/-- C1: for every experience-section text and every behavior of the
recognition engine, each entry returned by `extract_experience` has at
least one of its three fields non-empty, and no retained entry is
identical, case-insensitively and field by field, to the immediately
preceding retained entry. -/
theorem C1_extract_experience_invariants (o : BlockOracle) (text : List Char) :
    (∀ e ∈ extract_experience o text,
      ¬ (e.job_title = [] ∧ e.company_name = [] ∧ e.date_range = [])) ∧
    List.Chain'
      (fun a b => ¬ (lowerL a.job_title = lowerL b.job_title ∧
        lowerL a.company_name = lowerL b.company_name ∧
        lowerL a.date_range = lowerL b.date_range))
      (extract_experience o text) := by
  constructor
  · intro e he
    unfold extract_experience dedup_experience at he
    exact entryAllEmpty_false (dedupGo_nonempty _ none e he)
  · unfold extract_experience dedup_experience
    exact ((dedupGo_chain _ none).1).imp (fun a b h => entryEqCI_false h)

/-! ## Email extraction and the request handler (app.py lines 225 through 698) -/

/-- Local-part characters `[A-Za-z0-9._%+-]` of the email pattern. -/
def emailLocalChar (c : Char) : Bool :=
  isAlphaC c || isDigitC c || c = '.' || c = '_' || c = '%' || c = '+' || c = '-'

/-- Domain characters `[A-Za-z0-9.-]`. -/
def emailDomainChar (c : Char) : Bool :=
  isAlphaC c || isDigitC c || c = '.' || c = '-'

/-- Greedy domain run of length `k`, longest first, followed by a literal
dot and at least two letters (the TLD run is maximal). -/
def emailDomainTry (loc r2 : List Char) : Nat → Option (List Char)
  | 0 => none
  | k + 1 =>
    match r2.drop (k + 1) with
    | '.' :: r3 =>
      let alpha := r3.takeWhile isAlphaC
      if 2 ≤ alpha.length then some (loc ++ '@' :: r2.take (k + 1) ++ '.' :: alpha)
      else emailDomainTry loc r2 k
    | _ => emailDomainTry loc r2 k

/-- The email pattern `[A-Za-z0-9._%+-]+@[A-Za-z0-9.-]+\.[A-Za-z]{2,}` at
the current position. -/
def emailAt (t : List Char) : Option (List Char) :=
  let loc := t.takeWhile emailLocalChar
  if loc = [] then none
  else
    match t.drop loc.length with
    | '@' :: r2 => emailDomainTry loc r2 (r2.takeWhile emailDomainChar).length
    | _ => none

/-- Model of `re.search` scan for the email pattern. -/
def emailSearch : List Char → Option (List Char)
  | [] => none
  | c :: rest =>
    match emailAt (c :: rest) with
    | some m => some m
    | none => emailSearch rest

/-- Model of `extract_email_regex` (app.py lines 225 through 227). -/
def extract_email_regex (text : List Char) : List Char :=
  (emailSearch text).getD []

/-- Case-insensitive key order on character lists, for the merges inside
the request handler. -/
def keyLEL (a b : List Char) : Prop := lexLE (lowerL a) (lowerL b) = true

instance : DecidableRel keyLEL := fun a b =>
  inferInstanceAs (Decidable (lexLE (lowerL a) (lowerL b) = true))

/-- Model of `merge_sets` at the character-list level: stable case-insensitive sort
of an enumeration of the trimmed union. -/
def merge_from_iterL (iter : List (List Char)) : List (List Char) :=
  List.insertionSort keyLEL iter

/-- The JSON value found in the request's "text" field: a string, or
anything that is not a string.  A missing field defaults to the empty
string (`data.get("text", "")`), i.e. `jstr []`. -/
inductive JVal where
  | jstr (s : List Char)
  | jnonstr
deriving DecidableEq

/-- The response structure assembled by `parse_resume`; `experiences`
carries the same three fields that the camelCase rendering exposes as
`jobTitle`, `companyName`, `dateRange`. -/
structure ParseResponse where
  fullName : List Char
  email : List Char
  phoneNumber : List Char
  skills : List (List Char)
  jobTitles : List (List Char)
  organizations : List (List Char)
  experiences : List ExperienceEntry
  projects : List (List Char)
deriving DecidableEq

/-- Everything the request handler takes from the external recognition
engine and the process configuration: the two switches, the learned-model
outputs for the whole document, the EntityRuler skill set (empty when no
pattern files were loaded), the spaCy token-level email, and the per-block
oracle for the experience matcher. -/
structure MLOracle where
  hybridUseML : Bool
  mlAvailable : Bool
  nameML : List Char
  mlSkills : List (List Char)
  mlTitles : List (List Char)
  mlOrgs : List (List Char)
  rulerSkills : List (List Char)
  spacyEmail : List Char
  blocks : BlockOracle

/-- Model of the `parse_resume` request handler (app.py lines 607 through
698).  The unordered Python sets passed to `merge_sets` are enumerated as
the deduplicated concatenation of their operands in source order (one valid
set-iteration order; the order of case-insensitive ties within a set is
not otherwise determined). -/
def parse_resume (tf : JVal) (o : MLOracle) : Except (List Char) ParseResponse :=
  match tf with
  | .jnonstr => .error "Invalid request. 'text' field is required.".data
  | .jstr text =>
    if stripL text = [] then .error "Invalid request. 'text' field is required.".data
    else
      .ok
        { fullName :=
            if (if o.hybridUseML && o.mlAvailable then o.nameML else []) ≠ []
            then (if o.hybridUseML && o.mlAvailable then o.nameML else [])
            else extract_name_fallback text
          email :=
            if o.spacyEmail ≠ [] then o.spacyEmail else extract_email_regex text
          phoneNumber := extract_phone_number text
          skills := merge_from_iterL
            ((((if o.hybridUseML && o.mlAvailable then o.mlSkills else []) ++
              extract_skills_dict text ++ o.rulerSkills).map stripL).dedup)
          jobTitles := merge_from_iterL
            ((((if o.hybridUseML && o.mlAvailable then o.mlTitles else []) ++
              extract_job_titles_dict text).map stripL).dedup)
          organizations := merge_from_iterL
            (((extract_orgs_dict text ++
              (if o.hybridUseML && o.mlAvailable then o.mlOrgs else [])).map
                stripL).dedup)
          experiences := extract_experience o.blocks
            ((alookup "experience".data (split_resume_sections text)).getD [])
          projects := [] }

/-- C7: a request whose "text" field is missing, empty, whitespace-only or
not a string is rejected with the validation error; the handler returns no
extraction output for such input (the error carries no response record, so
no extractor result can be observed). -/
theorem C7_invalid_text_rejected (tf : JVal) (o : MLOracle)
    (h : tf = JVal.jnonstr ∨ ∃ s, tf = JVal.jstr s ∧ stripL s = []) :
    parse_resume tf o = Except.error "Invalid request. 'text' field is required.".data := by
  rcases h with rfl | ⟨s, rfl, hs⟩
  · rfl
  · simp [parse_resume, hs]

/-- Witness for C7: a whitespace-only text field is rejected. -/
theorem C7_invalid_text_rejected_witness :
    parse_resume (JVal.jstr "  \n\t ".data)
      ⟨false, false, [], [], [], [], [], [],
        ⟨fun _ => none, fun _ => none, fun _ => []⟩⟩ =
    Except.error "Invalid request. 'text' field is required.".data :=
  C7_invalid_text_rejected _ _ (Or.inr ⟨_, rfl, by decide⟩)

/-- Witness for C1: the invariants instantiated at a concrete oracle and a
concrete two-block experience text with a duplicated block. -/
theorem C1_extract_experience_invariants_witness :
    (∀ e ∈ extract_experience
        ⟨fun _ => none, fun _ => none, fun _ => []⟩
        "Software Engineer at Acme Inc, Jan 2020 - 2021\n\nSoftware Engineer at Acme Inc, Jan 2020 - 2021".data,
      ¬ (e.job_title = [] ∧ e.company_name = [] ∧ e.date_range = [])) ∧
    List.Chain'
      (fun a b => ¬ (lowerL a.job_title = lowerL b.job_title ∧
        lowerL a.company_name = lowerL b.company_name ∧
        lowerL a.date_range = lowerL b.date_range))
      (extract_experience ⟨fun _ => none, fun _ => none, fun _ => []⟩
        "Software Engineer at Acme Inc, Jan 2020 - 2021\n\nSoftware Engineer at Acme Inc, Jan 2020 - 2021".data) :=
  C1_extract_experience_invariants ⟨fun _ => none, fun _ => none, fun _ => []⟩ _
